import Mathlib

/-!
# SafeTranscript — verification of the PII detection and anonymization pipeline

Shallow embedding of the GLiNER inference pipeline and the anonymization layer
of the SafeTranscript repository:

* `src/services/gliner/processor.ts` (word splitting, batch construction),
* the span/token decoders (`decodeSpanLevel`, `decodeTokenLevel`, `greedySearch`),
* `GLiNERInference.ts` (`detectPII`, `detectPIIChunked`),
* `src/services/gliner/tokenizer.ts` (Unigram / BPE tokenizers),
* `src/services/anonymization.ts` (hybrid and regex anonymization, reversal).

Modelling conventions:

* JavaScript strings are modelled as `List Char` (`Str`).  Character offsets are
  the list indices.  (JS uses UTF-16 code units; for strings without astral
  code points the two coincide, and no claim depends on astral-specific
  indexing.)
* JS numbers holding integer offsets are modelled as `ℤ` (entity offsets,
  which can be shifted by computed chunk offsets) or `ℕ` (internal indices).
* Model scores: the decoders only ever use a raw logit `x` through
  `sigmoid(x)`, a strictly monotone bijection from ℝ onto (0,1).  The
  embedding therefore parameterises the external ONNX session by the
  *post-sigmoid* scores, as `ℚ` values; threshold comparisons are exactly the
  source's comparisons in score space.
* The external ONNX session (out of scope per the spec) is a function
  parameter from the input text and labels to the raw output scores and dims.
* Fallible or potentially non-terminating JS loops are modelled with explicit
  fuel returning `Option` where nontermination is reachable; theorems prove
  the fuel suffices.
-/

set_option maxHeartbeats 1000000
set_option maxRecDepth 100000

attribute [local semireducible] Rat.add Rat.sub Rat.mul Rat.inv Rat.ofScientific

namespace SafeTranscript

/-- JS strings as lists of characters. -/
abbrev Str := List Char

/-- `String.prototype.slice(a, b)` for `0 ≤ a` and `0 ≤ b` (the only calls the
source makes): clamps to the string length, and returns `""` when `a ≥ b`. -/
def jsSlice (s : Str) (a b : ℕ) : Str :=
  (s.drop a).take (b - a)

/-- `String.prototype.slice` on possibly negative JS numbers: a negative index
counts from the end, indices clamp to `[0, length]`. -/
def jsSliceZ (s : Str) (a b : ℤ) : Str :=
  let n : ℤ := s.length
  let norm : ℤ → ℕ := fun i => (min (max (if i < 0 then n + i else i) 0) n).toNat
  jsSlice s (norm a) (norm b)

/-- First index `i ≥ start` at which `pat` occurs in `s`, as
`String.prototype.indexOf`: `-1` when there is no occurrence. -/
def jsIndexOf (s pat : Str) (start : ℕ) : ℤ :=
  let rec go : ℕ → ℕ → ℤ
    | _, 0 => -1
    | i, fuel + 1 =>
      if i + pat.length ≤ s.length then
        if pat.isPrefixOf (s.drop i) then (i : ℤ) else go (i + 1) fuel
      else -1
  go start (s.length + 1 - start)

/-- The JS whitespace class `\s` (the code points `String.prototype.trim` and
`\s` treat as whitespace). -/
def jsIsSpace (c : Char) : Bool :=
  c.toNat ∈ [0x9, 0xA, 0xB, 0xC, 0xD, 0x20, 0xA0, 0x1680, 0x2000, 0x2001,
    0x2002, 0x2003, 0x2004, 0x2005, 0x2006, 0x2007, 0x2008, 0x2009, 0x200A,
    0x2028, 0x2029, 0x202F, 0x205F, 0x3000, 0xFEFF]

/-- The JS word-character class `\w` = `[A-Za-z0-9_]`. -/
def jsIsWordChar (c : Char) : Bool :=
  (('a' ≤ c && c ≤ 'z') || ('A' ≤ c && c ≤ 'Z') || ('0' ≤ c && c ≤ '9')
    || c = '_')

/-- The regex word-boundary test `\b` at position `i` of `s`: true when
exactly one of the two adjacent characters is a word character. -/
def jsWordBoundary (s : Str) (i : ℕ) : Bool :=
  let prevW := decide (0 < i) && (s.get? (i - 1)).any jsIsWordChar
  let nextW := (s.get? i).any jsIsWordChar
  prevW != nextW

/-- `String.prototype.trim`: strip leading and trailing JS whitespace. -/
def jsTrim (s : Str) : Str :=
  ((s.dropWhile jsIsSpace).reverse.dropWhile jsIsSpace).reverse

/-- Split loop of `String.prototype.split(/\s+/)`; see `jsSplitWs`.  The fuel
is structural; `s.length + 1` always suffices since every step consumes at
least one character. -/
def jsSplitWsGo : ℕ → Str → Str → List Str
  | 0, acc, _ => [acc.reverse]
  | _ + 1, acc, [] => [acc.reverse]
  | fuel + 1, acc, c :: rest =>
    if jsIsSpace c then
      acc.reverse :: jsSplitWsGo fuel [] (rest.dropWhile jsIsSpace)
    else jsSplitWsGo fuel (c :: acc) rest

/-- `String.prototype.split(/\s+/)`: split on maximal whitespace runs.  A
leading whitespace run produces a leading `""` element (and a trailing run a
trailing one), and `"".split(/\s+/)` is `[""]`. -/
def jsSplitWs (s : Str) : List Str :=
  jsSplitWsGo (s.length + 1) [] s

/-- ASCII lower-casing, modelling `String.prototype.toLowerCase` on the ASCII
range (the only range the claims exercise). -/
def jsToLower (s : Str) : Str :=
  s.map Char.toLower

/-- Stable insertion modelling one step of `Array.prototype.sort(cmp)` with
`lt a b` meaning `cmp a b < 0`: `a` is inserted after every element strictly
below it, so elements the comparator ties keep their original order. -/
def insertBy (lt : α → α → Bool) (a : α) : List α → List α
  | [] => [a]
  | b :: l => if lt b a then b :: insertBy lt a l else a :: b :: l

/-- Stable sort modelling `Array.prototype.sort(cmp)` (stable since ES2019). -/
def stableSortBy (lt : α → α → Bool) : List α → List α
  | [] => []
  | a :: l => insertBy lt a (stableSortBy lt l)

/-! ## Word splitting (`splitWords`, `src/services/gliner/processor.ts` and
`src/unnamed/part_005`)

```js
const regex = /\w+(?:[-_]\w+)*|\S/g;
```

At each position the regex engine first tries a maximal `\w+` run extended by
`(?:[-_]\w+)*` groups, otherwise a single non-space character; whitespace is
skipped.  `takeWordRun` and `extendRun` realise exactly this greedy behaviour
(an `[-_]\w+` group participates only when a word character follows the
`-`/`_`, since `\w+` needs at least one character).
-/

/-- Length of the maximal `\w+` run at the head of `s`. -/
def takeWordRun (s : Str) : ℕ :=
  (s.takeWhile jsIsWordChar).length

/-- Fuel-structural loop of `extendRun`; `s.length` fuel always suffices
since every step consumes at least two characters. -/
def extendRunGo : ℕ → Str → ℕ
  | 0, _ => 0
  | _ + 1, [] => 0
  | fuel + 1, c :: rest =>
    if c = '-' || c = '_' then
      let k := takeWordRun rest
      if 0 < k then (1 + k) + extendRunGo fuel (rest.drop k) else 0
    else 0

/-- Number of characters consumed by the greedy `(?:[-_]\w+)*` extension of a
word match: repeatedly consume a `-`/`_` followed by a nonempty `\w+` run. -/
def extendRun (s : Str) : ℕ :=
  extendRunGo s.length s

/-- One regex step of `splitWords` at position `i`: the length of the match
starting at `i`, or `none` when `s[i]` is whitespace (no match starts here). -/
def splitWordsStep (s : Str) (i : ℕ) : Option ℕ :=
  match s.get? i with
  | none => none
  | some c =>
    if jsIsWordChar c then
      let k := takeWordRun (s.drop i)
      some (k + extendRun (s.drop (i + k)))
    else if jsIsSpace c then none
    else some 1

/-- Scan loop of `splitWords`; fuel `s.length + 1 - i` always suffices since
every step advances `i`. -/
def splitWordsGo (s : Str) (i fuel : ℕ) : List (Str × ℕ × ℕ) :=
  match fuel with
  | 0 => []
  | fuel + 1 =>
    if i < s.length then
      match splitWordsStep s i with
      | some k => (jsSlice s i (i + k), i, i + k) :: splitWordsGo s (i + k) fuel
      | none => splitWordsGo s (i + 1) fuel
    else []

/-- `splitWords`: all matches of `/\w+(?:[-_]\w+)*|\S/g` with their character
offsets, as `(word, start, end)` triples. -/
def splitWords (s : Str) : List (Str × ℕ × ℕ) :=
  splitWordsGo s 0 (s.length + 1)

/-- Well-formedness of a word-triple list produced from `s` scanning from
position `lo`: offsets are in bounds, strictly ordered and disjoint, and each
word is the corresponding slice of `s`. -/
def WordTriplesOK (s : Str) : ℕ → List (Str × ℕ × ℕ) → Prop
  | _, [] => True
  | lo, (w, a, b) :: rest =>
    lo ≤ a ∧ a < b ∧ b ≤ s.length ∧ w = jsSlice s a b ∧ WordTriplesOK s b rest

/-- `l[i]` with a default, as JS array indexing followed by a documented
fallback. -/
def nthD (l : List α) (i : ℕ) (d : α) : α :=
  (l.get? i).getD d

/-! ## Batch processor (`src/services/gliner/processor.ts`, `src/unnamed/part_005`)

The tokenizer module functions (`encodeWord`, `getSpecialTokenId`,
`getClsTokenId`) are passed as a `TokEnv` record: they read the module-level
tokenizer singleton, which the processor only consumes.
-/

/-- The tokenizer capabilities the processor consumes (module-level tokenizer
state after successful `initTokenizer`). -/
structure TokEnv where
  enc : Str → List ℤ
  specialId : Str → ℤ
  clsId : ℤ

/-- Result of `buildTokenSequence` for one text. -/
structure TokSeq where
  inputIds : List ℤ
  attentionMask : List ℤ
  wordsMask : List ℤ
  words : List (Str × ℕ × ℕ)
  wordsStartIdx : List ℕ
  wordsEndIdx : List ℕ
  tokens : List Str

/-- `buildTokenSequence`: `[CLS] <<ENT>> label₁ … <<SEP>> word₁-subwords …`
with `wordsMask` 0 on `[CLS]` and prompt tokens, and the 1-based word ordinal
on the first subword of each text word. -/
def buildTokenSequence (env : TokEnv) (text : Str) (entities : List Str)
    (entToken sepToken : Str) : TokSeq :=
  let entTokenId := env.specialId entToken
  let sepTokenId := env.specialId sepToken
  let promptTokenIds :=
    (entities.flatMap (fun e =>
      entTokenId :: (jsSplitWs e).flatMap env.enc)) ++ [sepTokenId]
  let words := splitWords text
  let wordPieces := words.map (fun t => env.enc t.1)
  let inputIds := env.clsId :: promptTokenIds ++ wordPieces.flatten
  let attentionMask := inputIds.map (fun _ => (1 : ℤ))
  let wordsMask :=
    (0 : ℤ) :: promptTokenIds.map (fun _ => (0 : ℤ)) ++
      (wordPieces.enum.flatMap (fun p =>
        match p.2 with
        | [] => []
        | _ :: rest => ((p.1 : ℤ) + 1) :: rest.map (fun _ => (0 : ℤ))))
  { inputIds := inputIds
    attentionMask := attentionMask
    wordsMask := wordsMask
    words := words
    wordsStartIdx := words.map (fun t => t.2.1)
    wordsEndIdx := words.map (fun t => t.2.2)
    tokens := words.map (fun t => t.1) }

/-- `ProcessorOutput` of `prepareBatch` / `prepareSpanBatch`. -/
structure ProcessorOutput where
  inputIds : List (List ℤ)
  attentionMask : List (List ℤ)
  wordsMask : List (List ℤ)
  textLengths : List (List ℕ)
  batchTokens : List (List Str)
  batchWordsStartIdx : List (List ℕ)
  batchWordsEndIdx : List (List ℕ)
  spanIdx : Option (List (List (ℕ × ℕ))) := none
  spanMask : Option (List (List ℤ)) := none

/-- Zero-pad a sequence to length `n` (the batch padding loops). -/
def padTo (l : List α) (n : ℕ) (z : α) : List α :=
  l ++ List.replicate (n - l.length) z

/-- `prepareBatch` (token-level mode). -/
def prepareBatch (env : TokEnv) (texts : List Str) (entities : List Str)
    (entToken sepToken : Str) : ProcessorOutput :=
  let seqs := texts.map (fun t => buildTokenSequence env t entities entToken sepToken)
  let maxLen := (seqs.map (fun s => s.inputIds.length)).foldl max 0
  { inputIds := seqs.map (fun s => padTo s.inputIds maxLen 0)
    attentionMask := seqs.map (fun s => padTo s.attentionMask maxLen 0)
    wordsMask := seqs.map (fun s => padTo s.wordsMask maxLen 0)
    textLengths := seqs.map (fun s => [s.words.length])
    batchTokens := seqs.map (fun s => s.tokens)
    batchWordsStartIdx := seqs.map (fun s => s.wordsStartIdx)
    batchWordsEndIdx := seqs.map (fun s => s.wordsEndIdx) }

/-- The candidate-span index list of `prepareSpanBatch` for one text, before
the no-words dummy and batch padding: for every word `i` and width
`w < maxWidth`, the pair `(i, i+w)` when in range, else the `(0, 0)` filler. -/
def spanIdxFor (numWords maxWidth : ℕ) : List (ℕ × ℕ) :=
  (List.range numWords).flatMap (fun i =>
    (List.range maxWidth).map (fun w =>
      if i + w < numWords then (i, i + w) else (0, 0)))

/-- The parallel span validity mask; see `spanIdxFor`. -/
def spanMaskFor (numWords maxWidth : ℕ) : List ℤ :=
  (List.range numWords).flatMap (fun i =>
    (List.range maxWidth).map (fun w =>
      if i + w < numWords then (1 : ℤ) else 0))

/-- The span lists of `prepareSpanBatch` for one text: the `(i, i+w)`
enumeration plus its mask, or one dummy invalid span when the enumeration is
empty (`spanIdx.length === 0`). -/
def spanListsFor (numWords maxWidth : ℕ) : List (ℕ × ℕ) × List ℤ :=
  let si := spanIdxFor numWords maxWidth
  let sm := spanMaskFor numWords maxWidth
  if si.length = 0 then ([((0 : ℕ), (0 : ℕ))], [(0 : ℤ)]) else (si, sm)

/-- `prepareSpanBatch` (markerV0 / span-level mode): the token batch plus
`span_idx`/`span_mask` tensors, with one dummy invalid span when a text has
no words, padded batch-wide to the largest span count. -/
def prepareSpanBatch (env : TokEnv) (texts : List Str) (entities : List Str)
    (maxWidth : ℕ) (entToken sepToken : Str) : ProcessorOutput :=
  let seqs := texts.map (fun t => buildTokenSequence env t entities entToken sepToken)
  let spans := seqs.map (fun s => spanListsFor s.words.length maxWidth)
  let maxLen := (seqs.map (fun s => s.inputIds.length)).foldl max 0
  let maxSpans := (spans.map (fun p => p.1.length)).foldl max 0
  { inputIds := seqs.map (fun s => padTo s.inputIds maxLen 0)
    attentionMask := seqs.map (fun s => padTo s.attentionMask maxLen 0)
    wordsMask := seqs.map (fun s => padTo s.wordsMask maxLen 0)
    textLengths := seqs.map (fun s => [s.words.length])
    batchTokens := seqs.map (fun s => s.tokens)
    batchWordsStartIdx := seqs.map (fun s => s.wordsStartIdx)
    batchWordsEndIdx := seqs.map (fun s => s.wordsEndIdx)
    spanIdx := some (spans.map (fun p => padTo p.1 maxSpans (0, 0)))
    spanMask := some (spans.map (fun p => padTo p.2 maxSpans 0)) }

/-! ## Decoders (`src/unnamed/part_008`, the combined `decoder.ts`)

The decoders receive the model output only through `sigmoid(logit)`; since
`sigmoid` is a strictly monotone bijection of ℝ onto (0,1) the embedding takes
the flattened *post-sigmoid* scores (`ℚ`) directly.  Out-of-range reads of the
score array (possible only when the externally reported output dims disagree
with the actual tensor, which makes the JS code compute with `NaN`) are
modelled as reading 0; every theorem below holds for arbitrary score
values, so this choice is immaterial to them.
-/

/-- A detected entity (`GLiNEREntity`).  Offsets are `ℤ` because the chunked
path shifts them by an `indexOf` result. -/
structure Entity where
  text : Str
  label : Str
  start : ℤ
  «end» : ℤ
  score : ℚ
deriving DecidableEq

/-- The overlap test of `greedySearch` and of the hybrid dedup step:
`candidate.start < a.end && candidate.end > a.start`. -/
def entOverlaps (c a : Entity) : Bool :=
  c.start < a.«end» && a.start < c.«end»

/-- Half-open non-overlap of two entities, the relation of claim C2:
`a.start ≥ b.end ∨ b.start ≥ a.end`. -/
def EntDisjoint (a b : Entity) : Prop :=
  b.«end» ≤ a.start ∨ a.«end» ≤ b.start

/-- The middle step of `greedySearch`: walk the score-descending candidates,
accepting each candidate whose character range overlaps no accepted one. -/
def greedyAccepted (candidates : List Entity) : List Entity :=
  (stableSortBy (fun a b => b.score < a.score) candidates).foldl
    (fun acc c => if acc.any (fun a => entOverlaps c a) then acc else acc ++ [c]) []

/-- `greedySearch`: sort candidates by descending score, greedily accept
non-overlapping ones, then sort accepted entities by ascending start. -/
def greedySearch (candidates : List Entity) : List Entity :=
  stableSortBy (fun a b => a.start < b.start) (greedyAccepted candidates)

/-- First-match lookup in a prepend-ordered association list (models
`Map.prototype.get` where `set` prepends, i.e. the latest write wins). -/
def mapGet (m : List ((ℕ × ℕ) × ℚ)) (k : ℕ × ℕ) : Option ℚ :=
  (m.find? (fun p => p.1 = k)).map (fun p => p.2)

/-- `array.push(c)` guarded by an optional candidate: the shape of every
candidate-collecting loop body in the decoders. -/
def pushOpt (cands : List Entity) (o : Option Entity) : List Entity :=
  match o with
  | some c => cands ++ [c]
  | none => cands

/-- The best-label fold of `decodeSpanLevel`: JS starts from
`bestScore = -Infinity, bestEntity = -1` and updates on strict improvement;
`none` models the untouched initial state (only possible for
`numEntities = 0`, where the JS guard `bestEntity >= 0` also rejects). -/
def bestLabel (scores : List ℚ) (numEntities : ℕ) (base : ℕ) : Option (ℚ × ℕ) :=
  (List.range numEntities).foldl
    (fun (acc : Option (ℚ × ℕ)) e =>
      let sc := nthD scores (base + e) 0
      match acc with
      | none => some (sc, e)
      | some (bs, be) => if bs < sc then some (sc, e) else some (bs, be))
    none

/-- The body of the `decodeSpanLevel` span loop: `none` when the iteration
`continue`s, `some entity` when it pushes a candidate.  A `none` span-mask or
span-idx read models an out-of-range access (unreachable from
`runSpanInference`, where `numSpans` is the span-array length). -/
def spanCandidateAt (scores : List ℚ) (numSpans numEntities : ℕ)
    (entities : List Str) (text : Str) (startIdx endIdx : List ℕ)
    (spanIdx : List (ℕ × ℕ)) (spanMask : List ℤ) (threshold : ℚ)
    (b s : ℕ) : Option Entity :=
  match spanMask.get? s with
  | none => none
  | some m =>
    if m = 0 then none
    else
      let sw := ((spanIdx.get? s).getD (0, 0)).1
      let ew := ((spanIdx.get? s).getD (0, 0)).2
      match bestLabel scores numEntities
          (b * (numSpans * numEntities) + s * numEntities) with
      | none => none
      | some (bestScore, bestEntity) =>
        if threshold < bestScore then
          match startIdx.get? sw, endIdx.get? ew with
          | some charStart, some charEnd =>
            some { text := jsSlice text charStart charEnd
                   label := (entities.get? bestEntity).getD ("undefined".data)
                   start := (charStart : ℤ)
                   «end» := (charEnd : ℤ)
                   score := bestScore }
          | _, _ => none
        else none

/-- `decodeSpanLevel`: span-enumeration decoding.  For every masked-in span
take the best-scoring label; keep it when that score exceeds the threshold;
map word indices to character offsets; finally `greedySearch`. -/
def decodeSpanLevel (scores : List ℚ) (batchSize numSpans numEntities : ℕ)
    (entities : List Str) (texts : List Str)
    (batchWordsStartIdx batchWordsEndIdx : List (List ℕ))
    (spanIdx : List (List (ℕ × ℕ))) (spanMask : List (List ℤ))
    (threshold : ℚ) : List (List Entity) :=
  (List.range batchSize).map (fun b =>
    let candidates := (List.range numSpans).foldl (fun cands s =>
      pushOpt cands (spanCandidateAt scores numSpans numEntities entities
        (nthD texts b []) (nthD batchWordsStartIdx b []) (nthD batchWordsEndIdx b [])
        (nthD spanIdx b []) (nthD spanMask b []) threshold b s)) []
    greedySearch candidates)

/-- The start/end/inside gathering loop of `decodeTokenLevel` for one batch
item: walks every output word position and entity, records start and end
candidates meeting the threshold, and caches every inside score (the
`insideMap` association is prepended, so the first hit is the latest
`Map.set`, matching JS overwrite semantics). -/
def tokenGather (scores : List ℚ) (inputLength numEntities : ℕ)
    (batchOffset : ℕ) (posMap : List ℕ) (threshold : ℚ) :
    List (ℕ × ℕ × ℚ) × List (ℕ × ℕ × ℚ) × List ((ℕ × ℕ) × ℚ) :=
  (List.range inputLength).foldl (fun acc w =>
    match posMap.get? w with
    | none => acc
    | some textWord =>
      (List.range numEntities).foldl (fun acc e =>
        let base := batchOffset + w * (numEntities * 3) + e * 3
        let startProb := nthD scores (base + 0) 0
        let endProb := nthD scores (base + 1) 0
        let insideProb := nthD scores (base + 2) 0
        let acc1 := if threshold ≤ startProb then
          (acc.1 ++ [(textWord, e, startProb)], acc.2.1, acc.2.2) else acc
        let acc2 := if threshold ≤ endProb then
          (acc1.1, acc1.2.1 ++ [(textWord, e, endProb)], acc1.2.2) else acc1
        (acc2.1, acc2.2.1, ((textWord, e), insideProb) :: acc2.2.2)) acc)
    ([], [], [])

/-- The body of the start/end pairing loop of `decodeTokenLevel`: `none` when
the pair is rejected (label mismatch, wrong order, an inside score below
threshold, or an undefined character offset), `some entity` when it pushes a
candidate. -/
def tokenCandidateAt (entities : List Str) (text : Str)
    (startIdx endIdx : List ℕ) (insideMap : List ((ℕ × ℕ) × ℚ))
    (threshold : ℚ) (s en : ℕ × ℕ × ℚ) : Option Entity :=
  if en.2.1 ≠ s.2.1 then none
  else if en.1 < s.1 then none
  else
    let insideScores := (List.range' (s.1 + 1) (en.1 - s.1 - 1)).map
      (fun w => (mapGet insideMap (w, s.2.1)).getD 0)
    if insideScores.all (fun q => threshold ≤ q) then
      let insideTotal := insideScores.sum
      let insideCount := insideScores.length
      let avgScore := if 0 < insideCount then
          (s.2.2 + en.2.2 + insideTotal) / (2 + (insideCount : ℚ))
        else (s.2.2 + en.2.2) / 2
      match startIdx.get? s.1, endIdx.get? en.1 with
      | some charStart, some charEnd =>
        some { text := jsSlice text charStart charEnd
               label := (entities.get? s.2.1).getD ("undefined".data)
               start := (charStart : ℤ)
               «end» := (charEnd : ℤ)
               score := avgScore }
      | _, _ => none
    else none

/-- `decodeTokenLevel`: token-pair decoding.  Build the compacted
output-position → text-word map from `wordsMask`, gather start/end
candidates and inside scores above threshold, pair compatible start/end
candidates validating inside scores, map to character offsets, then
`greedySearch`. -/
def decodeTokenLevel (scores : List ℚ) (batchSize inputLength numEntities : ℕ)
    (entities : List Str) (texts : List Str)
    (batchWordsStartIdx batchWordsEndIdx : List (List ℕ))
    (wordsMask : List (List ℤ)) (threshold : ℚ) : List (List Entity) :=
  (List.range batchSize).map (fun b =>
    let mask := nthD wordsMask b []
    let posMap : List ℕ := (mask.filter (fun v => 0 < v)).map (fun v => (v - 1).toNat)
    let gather := tokenGather scores inputLength numEntities
      (b * (inputLength * numEntities * 3)) posMap threshold
    let starts := gather.1
    let ends := gather.2.1
    let insideMap := gather.2.2
    let candidates := starts.foldl (fun cands s =>
      ends.foldl (fun cands en =>
        pushOpt cands (tokenCandidateAt entities (nthD texts b [])
          (nthD batchWordsStartIdx b []) (nthD batchWordsEndIdx b [])
          insideMap threshold s en)) cands) []
    greedySearch candidates)

/-! ## Inference orchestrator (`src/unnamed/part_004`, `GLiNERInference.ts`)

The ONNX session (out of scope per the spec: a capability that accepts named
tensors and returns named output tensors) is modelled as a function from the
input text and label list to the post-sigmoid output scores and the reported
output dims.  The module-level `_config`/`_isSpanMode` state after
initialization is the rest of `GlinerEnv`.
-/

/-- `DEFAULT_THRESHOLD` of `src/services/gliner/config.ts`. -/
def DEFAULT_THRESHOLD : ℚ := 0.4

/-- The span-model output: post-sigmoid scores of shape
`[1, numSpans, dims2]` flattened, and the reported last output dim. -/
structure SpanRun where
  scores : List ℚ
  dims2 : ℕ

/-- The token-model output: post-sigmoid scores of shape
`[1, dims1, dims2, 3]` flattened, and the reported dims 1 and 2. -/
structure TokenRun where
  scores : List ℚ
  dims1 : ℕ
  dims2 : ℕ

/-- Loaded GLiNER module state (tokenizer, parsed config, detected mode) plus
the external ONNX session. -/
structure GlinerEnv where
  tok : TokEnv
  isSpanMode : Bool
  maxWidth : ℕ
  entToken : Str
  sepToken : Str
  runSpan : Str → List Str → SpanRun
  runToken : Str → List Str → TokenRun

/-- `runSpanInference`: build the span batch, run the session, decode,
return the batch-0 entity list. -/
def runSpanInference (env : GlinerEnv) (text : Str) (labels : List Str)
    (threshold : ℚ) : List Entity :=
  let batch := prepareSpanBatch env.tok [text] labels env.maxWidth
    env.entToken env.sepToken
  let numSpans := (nthD (batch.spanIdx.getD []) 0 []).length
  let out := env.runSpan text labels
  let entities := decodeSpanLevel out.scores 1 numSpans out.dims2 labels [text]
    batch.batchWordsStartIdx batch.batchWordsEndIdx
    (batch.spanIdx.getD []) (batch.spanMask.getD []) threshold
  nthD entities 0 []

/-- `runTokenInference`: build the token batch, run the session, decode,
return the batch-0 entity list. -/
def runTokenInference (env : GlinerEnv) (text : Str) (labels : List Str)
    (threshold : ℚ) : List Entity :=
  let batch := prepareBatch env.tok [text] labels env.entToken env.sepToken
  let out := env.runToken text labels
  let entities := decodeTokenLevel out.scores 1 out.dims1 out.dims2 labels [text]
    batch.batchWordsStartIdx batch.batchWordsEndIdx
    batch.wordsMask threshold
  nthD entities 0 []

/-- `runInference`: dispatch on the detected span mode. -/
def runInference (env : GlinerEnv) (text : Str) (labels : List Str)
    (threshold : ℚ) : List Entity :=
  if env.isSpanMode then runSpanInference env text labels threshold
  else runTokenInference env text labels threshold

/-- The `(start, end, label)` dedup key of `detectPIIChunked`:
`` `${start}-${end}-${label}` ``. -/
def entityKey (e : Entity) : Str :=
  (toString e.start).data ++ ('-' :: (toString e.«end»).data) ++ ('-' :: e.label)

/-- The word window of the chunk-loop iteration at word index `i`:
`words.slice(i, i + chunkSize)`. -/
def chunkWordsAt (words : List Str) (chunkSize i : ℕ) : List Str :=
  (words.drop i).take chunkSize

/-- The window text the chunk loop runs inference on:
`chunkWords.join(' ')`. -/
def chunkTextAt (words : List Str) (chunkSize i : ℕ) : Str :=
  List.intercalate [' '] (chunkWordsAt words chunkSize i)

/-- The character offset the chunk loop shifts a window's entities by:
`text.indexOf(chunkWords[0], i > 0 ? text.indexOf(words[i-1]) : 0)` (a JS
`indexOf` clamps a negative `fromIndex` to 0, hence `.toNat`). -/
def chunkShiftAt (text : Str) (words : List Str) (chunkSize i : ℕ) : ℤ :=
  jsIndexOf text (nthD (chunkWordsAt words chunkSize i) 0 [])
    (if 0 < i then (jsIndexOf text (nthD words (i - 1) []) 0).toNat else 0)

/-- An entity with both offsets shifted by `d`. -/
def shiftEnt (e : Entity) (d : ℤ) : Entity :=
  { e with start := e.start + d, «end» := e.«end» + d }

/-- The dedup step of the chunk loop over one window's entities: shift, then
keep only entities whose `(start,end,label)` key is unseen. -/
def chunkDedupStep (entities : List Entity) (d : ℤ)
    (st : List Entity × List Str) : List Entity × List Str :=
  entities.foldl (fun st e =>
    let adjusted := shiftEnt e d
    let key := entityKey adjusted
    if st.2.contains key then st
    else (st.1 ++ [adjusted], key :: st.2)) st

/-- Loop of `detectPIIChunked`: each iteration slices a word window, joins it
with single spaces, locates it with `indexOf`, runs inference on the joined
window, shifts offsets by the located position, and key-dedups.  The fuel
`words.length + 1` covers every `chunkSize > OVERLAP` the callers use (the
JS loop would not terminate for `chunkSize ≤ 50`). -/
def detectPIIChunkedGo (env : GlinerEnv) (text : Str) (labels : List Str)
    (threshold : ℚ) (chunkSize : ℕ) (words : List Str) :
    ℕ → ℕ → List Entity × List Str → List Entity
  | _, 0, st => st.1
  | i, fuel + 1, st =>
    if i < words.length then
      let entities := runInference env (chunkTextAt words chunkSize i)
        labels threshold
      detectPIIChunkedGo env text labels threshold chunkSize words
        (i + (chunkSize - 50)) fuel
        (chunkDedupStep entities (chunkShiftAt text words chunkSize i) st)
    else st.1

/-- `detectPIIChunked`: overlapping word windows (fixed `OVERLAP = 50`),
per-window inference, offset shifting, `(start,end,label)`-key dedup, and a
final ascending sort by start. -/
def detectPIIChunked (env : GlinerEnv) (text : Str) (labels : List Str)
    (threshold : ℚ) (chunkSize : ℕ) : List Entity :=
  let words := jsSplitWs text
  let all := detectPIIChunkedGo env text labels threshold chunkSize words
    0 (words.length + 1) ([], [])
  stableSortBy (fun a b => a.start < b.start) all

/-- `detectPII` with an explicit threshold argument. -/
def detectPII (env : GlinerEnv) (text : Str) (labels : List Str)
    (threshold : ℚ) : List Entity :=
  let maxWords := if env.isSpanMode then 200 else 500
  let words := jsSplitWs text
  if maxWords < words.length then
    detectPIIChunked env text labels threshold maxWords
  else
    runInference env text labels threshold

/-- `detectPII(text, labels)` as a JS caller that omits the threshold sees
it: the default parameter is `DEFAULT_THRESHOLD`. -/
def detectPIIDefault (env : GlinerEnv) (text : Str) (labels : List Str) :
    List Entity :=
  detectPII env text labels DEFAULT_THRESHOLD

/-- Span validity of an entity against its source text (claim C3):
`0 ≤ start < end ≤ length text` and `text.slice(start, end) = entity.text`. -/
def SpanValid (text : Str) (e : Entity) : Prop :=
  ∃ cs ce : ℕ, e.start = (cs : ℤ) ∧ e.«end» = (ce : ℤ) ∧ cs < ce ∧
    ce ≤ text.length ∧ e.text = jsSlice text cs ce

instance (a b : Entity) : Decidable (EntDisjoint a b) :=
  decidable_of_iff (b.«end» ≤ a.start ∨ a.«end» ≤ b.start) Iff.rfl

/-! ### Concrete instances for the chunked-path counterexamples

The external ONNX session is out of the spec's scope, so the counterexamples
pick concrete post-sigmoid score vectors it could return; all other data is
computed by the embedded pipeline itself.  The input texts are 201 words of
`"a"`, which exceeds the span-mode 200-word ceiling and triggers
`detectPIIChunked` with windows `words[0..200)` (joined text of 399 chars)
and `words[150..201)` (joined text of 101 chars).
-/

/-- 201 whitespace-separated one-character words. -/
def textAllA : Str :=
  List.intercalate [' '] (List.replicate 201 ['a'])

/-- 201 words with a double space between the first and second word. -/
def textC3 : Str :=
  'a' :: ' ' :: ' ' :: List.intercalate [' '] (List.replicate 200 ['a'])

/-- Span-mode environment for the C2 counterexample: the first window's
output scores select span 10 with label 0, the second window's scores select
its span 10 with label 1. -/
def envC2 : GlinerEnv where
  tok := ⟨fun _ => [1], fun _ => 0, 0⟩
  isSpanMode := true
  maxWidth := 1
  entToken := "<<ENT>>".data
  sepToken := "<<SEP>>".data
  runSpan := fun t _ =>
    if t.length = 399 then ⟨List.replicate 20 0 ++ [(9 : ℚ)/10], 2⟩
    else ⟨List.replicate 21 0 ++ [(9 : ℚ)/10], 2⟩
  runToken := fun _ _ => ⟨[], 0, 0⟩

/-- Span-mode environment for the C3 counterexample: only the first window
detects an entity, on its word 1. -/
def envC3 : GlinerEnv where
  tok := ⟨fun _ => [1], fun _ => 0, 0⟩
  isSpanMode := true
  maxWidth := 1
  entToken := "<<ENT>>".data
  sepToken := "<<SEP>>".data
  runSpan := fun t _ =>
    if t.length = 399 then ⟨[0, (9 : ℚ)/10], 1⟩ else ⟨[], 1⟩
  runToken := fun _ _ => ⟨[], 0, 0⟩

/-- Token-mode environment for the C4 analysis: on the single word of the
input the model reports start/end scores of 0.35, between the decoder
default 0.3 and `DEFAULT_THRESHOLD` 0.4. -/
def envC4 : GlinerEnv where
  tok := ⟨fun _ => [1], fun _ => 9, 7⟩
  isSpanMode := false
  maxWidth := 12
  entToken := "<<ENT>>".data
  sepToken := "<<SEP>>".data
  runSpan := fun _ _ => ⟨[], 0⟩
  runToken := fun _ _ => ⟨[(35 : ℚ)/100, 35/100, 0], 1, 1⟩

/-- Span-mode environment for the C6 counterexample: only the second window
(joined length 101) detects an entity, on its word 10. -/
def envC6 : GlinerEnv where
  tok := ⟨fun _ => [1], fun _ => 0, 0⟩
  isSpanMode := true
  maxWidth := 1
  entToken := "<<ENT>>".data
  sepToken := "<<SEP>>".data
  runSpan := fun t _ =>
    if t.length = 101 then ⟨List.replicate 10 0 ++ [(9 : ℚ)/10], 1⟩ else ⟨[], 1⟩
  runToken := fun _ _ => ⟨[], 0, 0⟩

/-- Invariant of the chunk-loop state: every accumulated entity's dedup key
is in the seen set, and accumulated keys are pairwise distinct. -/
def KeyInv (st : List Entity × List Str) : Prop :=
  (∀ e ∈ st.1, st.2.contains (entityKey e) = true) ∧
  st.1.Pairwise (fun a b => entityKey a ≠ entityKey b)

/-! ## Tokenizer (`src/services/gliner/tokenizer.ts`)

`String.prototype.normalize('NFKC')` is a host capability and is carried as
a function field (`nfkc`); `TextEncoder().encode` is the standard UTF-8
encoding (`utf8Bytes`), implemented here for Unicode scalar values (the
`List Char` string model; lone UTF-16 surrogates are outside the model).
The JS `while` loops (Viterbi backtracking, BPE merging, WordPiece
splitting) are modelled with fuel returning `Option`, where `none` stands
for a non-terminating loop; claim C7 proves the fuel always suffices.
-/

/-- First-match association lookup (`Map.prototype.get` for maps built with
first-write-wins or unique keys). -/
def assocGet {α β : Type} [DecidableEq α] (l : List (α × β)) (k : α) : Option β :=
  (l.find? (fun p => p.1 = k)).map (fun p => p.2)

/-- UTF-8 bytes of a Unicode scalar value (`TextEncoder().encode`). -/
def utf8Bytes (c : Char) : List ℕ :=
  let n := c.toNat
  if n < 0x80 then [n]
  else if n < 0x800 then [0xC0 + n / 64, 0x80 + n % 64]
  else if n < 0x10000 then
    [0xE0 + n / 4096, 0x80 + (n / 64) % 64, 0x80 + n % 64]
  else
    [0xF0 + n / 262144, 0x80 + (n / 4096) % 64, 0x80 + (n / 64) % 64,
      0x80 + n % 64]

/-- The initial byte list of `buildByteEncoder`: printable ASCII `!`..`~`,
`¡`..`¬`, `®`..`ÿ`. -/
def byteEncoderBase : List ℕ :=
  List.range' 33 94 ++ List.range' 161 12 ++ List.range' 174 82

/-- `buildByteEncoder`: the GPT-2 byte-to-printable-character table — base
bytes map to themselves, the remaining bytes (in ascending order) map to
`256 + n`. -/
def buildByteEncoder : List (ℕ × Char) :=
  let bs := byteEncoderBase
  let extra := (List.range 256).filter (fun b => !bs.contains b)
  bs.map (fun b => (b, Char.ofNat b)) ++
    extra.enum.map (fun p => (p.2, Char.ofNat (256 + p.1)))

/-- `UnigramTokenizer` state after construction.  The vocab list pairs each
piece with its id and log-probability score (the constructor populates both
maps together with first-write-wins dedup). -/
structure UnigramState where
  vocab : List (Str × ℤ × ℚ)
  addedTokens : List (Str × ℤ)
  byteTokens : List (ℕ × ℤ)
  unkTokenId : ℤ
  clsTokenId : ℤ
  sepTokenId : ℤ
  maxPieceLength : ℕ
  nfkc : Str → Str

/-- `best[i]` entry of the Viterbi table: `(score, prev, id)`, with `none`
score standing for `-Infinity`. -/
abbrev VitEntry := Option ℚ × ℕ × ℤ

/-- Read `best[i]` (in-range in every reachable use). -/
def bestGetE (best : List VitEntry) (i : ℕ) (unk : ℤ) : VitEntry :=
  nthD best i (none, 0, unk)

/-- `newScore > oldScore` with `-Infinity` as `none`. -/
def gtScore (new : ℚ) (old : Option ℚ) : Bool :=
  match old with
  | none => true
  | some q => decide (q < new)

/-- The inner piece loop of `viterbi` at position `i`: try every piece
`text[i : i+len]` for `len ≤ min(maxPieceLength, n - i)` and relax
`best[i+len]`. -/
def viterbiPieceStep (st : UnigramState) (text : Str) (n : ℕ)
    (best : List VitEntry) (i : ℕ) : List VitEntry :=
  (List.range' 1 (min st.maxPieceLength (n - i))).foldl (fun best len =>
    let piece := jsSlice text i (i + len)
    match assocGet st.vocab piece with
    | none => best
    | some (id, sc) =>
      match (bestGetE best i st.unkTokenId).1 with
      | none => best
      | some bi =>
        let newScore := bi + sc
        if gtScore newScore (bestGetE best (i + len) st.unkTokenId).1 then
          best.set (i + len) (some newScore, i, id)
        else best) best

/-- The byte-fallback step of `viterbi` at position `i`: when no piece
reaches `i+1`, encode `text[i]` as UTF-8 byte tokens (marker id `-2`,
penalty 100), or fall back to the unknown token (penalty 200). -/
def viterbiFallbackStep (st : UnigramState) (text : Str)
    (best : List VitEntry) (i : ℕ) : List VitEntry :=
  if (bestGetE best (i + 1) st.unkTokenId).1 = none then
    match text.get? i with
    | none => best
    | some ch =>
      let bytes := utf8Bytes ch
      if bytes.all (fun b => (assocGet st.byteTokens b).isSome) then
        match (bestGetE best i st.unkTokenId).1 with
        | none => best
        | some bi =>
          let fallbackScore := bi - 100
          if gtScore fallbackScore (bestGetE best (i + 1) st.unkTokenId).1 then
            best.set (i + 1) (some fallbackScore, i, -2)
          else best
      else
        best.set (i + 1)
          (((bestGetE best i st.unkTokenId).1).map (fun q => q - 200), i,
            st.unkTokenId)
  else best

/-- One outer iteration of the `viterbi` forward pass (the
`best[i] = -Infinity && i > 0` `continue` guard included). -/
def viterbiStep (st : UnigramState) (text : Str) (n : ℕ)
    (best : List VitEntry) (i : ℕ) : List VitEntry :=
  if 0 < i ∧ (bestGetE best i st.unkTokenId).1 = none then best
  else viterbiFallbackStep st text (viterbiPieceStep st text n best i) i

/-- The full forward pass over positions `0..n-1` starting from
`best[0] = (0, 0, -1)` and `-Infinity` elsewhere. -/
def viterbiForward (st : UnigramState) (text : Str) (n : ℕ) : List VitEntry :=
  (List.range n).foldl (viterbiStep st text n)
    ((some 0, 0, (-1 : ℤ)) :: List.replicate n (none, 0, st.unkTokenId))

/-- The backtracking loop of `viterbi`: walk `prev` links from `n` to 0,
prepending the piece id, or — for the `-2` byte-fallback marker — the byte
token ids of the spanned characters (each `unshift` in source order, as the
JS does).  Fuel models the `while (pos > 0)` loop. -/
def backtrackGo (st : UnigramState) (text : Str) (best : List VitEntry) :
    ℕ → ℕ → List ℤ → Option (List ℤ)
  | _, 0, acc => some acc
  | 0, _ + 1, _ => none
  | fuel + 1, p + 1, acc =>
    let entry := bestGetE best (p + 1) st.unkTokenId
    let acc2 :=
      if entry.2.2 = -2 then
        ((jsSlice text entry.2.1 (p + 1)).flatMap utf8Bytes).foldl
          (fun acc b => ((assocGet st.byteTokens b).getD st.unkTokenId) :: acc) acc
      else entry.2.2 :: acc
    backtrackGo st text best fuel entry.2.1 acc2

/-- `UnigramTokenizer.viterbi`. -/
def viterbi (st : UnigramState) (text : Str) : Option (List ℤ) :=
  let n := text.length
  if n = 0 then some []
  else backtrackGo st text (viterbiForward st text n) (n + 1) n []

/-- `UnigramTokenizer.encodeWord`: added-token shortcut, NFKC
normalization, `▁` word-boundary marking, then Viterbi. -/
def unigramEncodeWord (st : UnigramState) (word : Str) : Option (List ℤ) :=
  match assocGet st.addedTokens word with
  | some id => some [id]
  | none =>
    let normalized := st.nfkc word
    let input := '▁' :: normalized.map (fun c => if c = ' ' then '▁' else c)
    viterbi st input

/-- `BPETokenizer` state after construction (added tokens are also written
into `vocab`, as the constructor does). -/
structure BPEState where
  vocab : List (Str × ℤ)
  mergeRanks : List (Str × ℕ)
  addedTokens : List (Str × ℤ)
  byteEncoder : List (ℕ × Char)
  unkTokenId : ℤ
  clsTokenId : ℤ
  sepTokenId : ℤ
  isByteLevelBPE : Bool
  addPrefixSpace : Bool

/-- `findBestMergePair`: the lowest-ranked adjacent symbol pair present in
the merge table (first such pair on rank ties, scanning left to right). -/
def findBestMergePair (st : BPEState) (symbols : List Str) : Option Str :=
  ((List.range (symbols.length - 1)).foldl
    (fun (acc : Option (Str × ℕ)) i =>
      let pair := nthD symbols i [] ++ (' ' :: nthD symbols (i + 1) [])
      match assocGet st.mergeRanks pair with
      | none => acc
      | some rank =>
        match acc with
        | none => some (pair, rank)
        | some (bp, br) => if rank < br then some (pair, rank) else some (bp, br))
    none).map (fun p => p.1)

/-- `bestPair.split(' ')` destructured to `[a, b]` (exactly one space when
symbols are space-free, which the byte-encoder table guarantees). -/
def splitPairAtSpace (pair : Str) : Str × Str :=
  (pair.takeWhile (fun c => !(c == ' ')),
    (pair.dropWhile (fun c => !(c == ' '))).drop 1)

/-- The merge pass of `applyBPE`: replace adjacent `a, b` occurrences by
`a ++ b`, advancing past each merged pair. -/
def mergePass (a b : Str) : List Str → List Str
  | [] => []
  | [x] => [x]
  | x :: y :: rest =>
    if x = a ∧ y = b then (a ++ b) :: mergePass a b rest
    else x :: mergePass a b (y :: rest)

/-- The `while (bestPair !== null)` loop of `applyBPE` (fuel-modelled; each
iteration merges at least one pair, so `symbols.length` fuel suffices). -/
def applyBPELoop (st : BPEState) : ℕ → List Str → Option (List Str)
  | 0, _ => none
  | fuel + 1, symbols =>
    match findBestMergePair st symbols with
    | none => some symbols
    | some pair =>
      let ab := splitPairAtSpace pair
      let ns := mergePass ab.1 ab.2 symbols
      if ns.length ≤ 1 then some ns
      else applyBPELoop st fuel ns

/-- `applyBPE`. -/
def applyBPE (st : BPEState) (symbols : List Str) : Option (List Str) :=
  if symbols.length ≤ 1 then some symbols
  else applyBPELoop st symbols.length symbols

/-- `encodeByteLevelBPE`: optional prefix space, byte-to-printable mapping,
BPE merges, vocabulary lookup with unknown-token substitution. -/
def encodeByteLevelBPE (st : BPEState) (word : Str) : Option (List ℤ) :=
  let toEncode := if st.addPrefixSpace then ' ' :: word else word
  let bytes := toEncode.flatMap utf8Bytes
  let symbols := bytes.map (fun b => [(assocGet st.byteEncoder b).getD (Char.ofNat b)])
  if symbols.length = 0 then some [st.unkTokenId]
  else if symbols.length = 1 then
    match assocGet st.vocab (nthD symbols 0 []) with
    | none => some [st.unkTokenId]
    | some id => some [id]
  else
    (applyBPE st symbols).map (fun syms =>
      syms.map (fun s => (assocGet st.vocab s).getD st.unkTokenId))

/-- The greedy longest-match step of `encodeWordPieceFallback`: the first
vocabulary hit scanning the end position downward (with `##` continuation
prefix after the word start). -/
def findWordPiece (st : BPEState) (word : Str) (start : ℕ) : Option (ℤ × ℕ) :=
  ((List.range' (start + 1) (word.length - start)).reverse).findSome?
    (fun endPos =>
      let substr := if 0 < start then '#' :: '#' :: jsSlice word start endPos
        else jsSlice word start endPos
      (assocGet st.vocab substr).map (fun id => (id, endPos)))

/-- The outer loop of `encodeWordPieceFallback` (fuel-modelled; every
iteration advances `start`). -/
def wordPieceGo (st : BPEState) (word : Str) : ℕ → ℕ → Option (List ℤ)
  | 0, _ => none
  | fuel + 1, start =>
    if start < word.length then
      match findWordPiece st word start with
      | some (id, endPos) =>
        (wordPieceGo st word fuel endPos).map (fun l => id :: l)
      | none =>
        (wordPieceGo st word fuel (start + 1)).map (fun l => st.unkTokenId :: l)
    else some []

/-- `encodeWordPieceFallback`: whole-word lookup, else greedy longest-match
splitting with `##` continuations and unknown-token fallback. -/
def encodeWordPieceFallback (st : BPEState) (word : Str) : Option (List ℤ) :=
  match assocGet st.vocab word with
  | some id => some [id]
  | none => wordPieceGo st word (word.length + 1) 0

/-- `BPETokenizer.encodeWord`. -/
def bpeEncodeWord (st : BPEState) (word : Str) : Option (List ℤ) :=
  match assocGet st.addedTokens word with
  | some id => some [id]
  | none =>
    if st.isByteLevelBPE then encodeByteLevelBPE st word
    else encodeWordPieceFallback st word

/-! ### Tokenizer module state (`tokenizer.ts` top level, claim C8) -/

/-- The constructed tokenizer instance behind the module singleton. -/
inductive TokenizerInst where
  | unigram (st : UnigramState)
  | bpe (st : BPEState)

/-- Module-level `encodeWord(word)`: throws `'Tokenizer not initialized'`
when the singleton is null.  The inner `Option` models loop termination
(always `some`, by claim C7). -/
def encodeWordTop (tok : Option TokenizerInst) (word : Str) :
    Except Str (Option (List ℤ)) :=
  match tok with
  | none => Except.error ("Tokenizer not initialized".data)
  | some (TokenizerInst.unigram st) => Except.ok (unigramEncodeWord st word)
  | some (TokenizerInst.bpe st) => Except.ok (bpeEncodeWord st word)

/-- `getTokenId` of either tokenizer class. -/
def instGetTokenId : TokenizerInst → Str → ℤ
  | TokenizerInst.unigram st, token =>
    (assocGet st.addedTokens token).getD
      (((assocGet st.vocab token).map (fun p => p.1)).getD st.unkTokenId)
  | TokenizerInst.bpe st, token =>
    (assocGet st.addedTokens token).getD
      ((assocGet st.vocab token).getD st.unkTokenId)

/-- Module-level `getSpecialTokenId(token)`. -/
def getSpecialTokenIdTop (tok : Option TokenizerInst) (token : Str) :
    Except Str ℤ :=
  match tok with
  | none => Except.error ("Tokenizer not initialized".data)
  | some t => Except.ok (instGetTokenId t token)

/-- Module-level `getClsTokenId()`. -/
def getClsTokenIdTop (tok : Option TokenizerInst) : Except Str ℤ :=
  match tok with
  | none => Except.error ("Tokenizer not initialized".data)
  | some (TokenizerInst.unigram st) => Except.ok st.clsTokenId
  | some (TokenizerInst.bpe st) => Except.ok st.clsTokenId

/-- Module-level `getSepTokenId()`. -/
def getSepTokenIdTop (tok : Option TokenizerInst) : Except Str ℤ :=
  match tok with
  | none => Except.error ("Tokenizer not initialized".data)
  | some (TokenizerInst.unigram st) => Except.ok st.sepTokenId
  | some (TokenizerInst.bpe st) => Except.ok st.sepTokenId

/-- Space-freeness of a symbol list (guaranteed by the byte-encoder table;
needed for BPE merge-loop termination). -/
def NoSpaceSyms (symbols : List Str) : Prop :=
  ∀ s ∈ symbols, ' ' ∉ s

/-! ### The chunk merge claim C6 describes, for comparison -/

/-- Modelled from the spec: character offsets of the maximal non-whitespace
runs of `s` — "that window's character start offset within the original
text" for a window starting at the i-th whitespace-separated word (texts
without leading whitespace). -/
def wsTokenStartsGo : ℕ → ℕ → Str → List ℕ
  | 0, _, _ => []
  | _ + 1, _, [] => []
  | fuel + 1, pos, c :: rest =>
    if jsIsSpace c then wsTokenStartsGo fuel (pos + 1) rest
    else
      let k := ((c :: rest).takeWhile (fun d => !jsIsSpace d)).length
      pos :: wsTokenStartsGo fuel (pos + k) ((c :: rest).drop k)

/-- See `wsTokenStartsGo`. -/
def wsTokenStarts (s : Str) : List ℕ :=
  wsTokenStartsGo (s.length + 1) 0 s

/-- Modelled from the spec: the loop of the chunk merge as claim C6 words
it — identical windows, inference and dedup, but each window's entity
offsets shifted by that window's character start offset within the
original text. -/
def claimC6MergeGo (env : GlinerEnv) (text : Str) (labels : List Str)
    (threshold : ℚ) (chunkSize : ℕ) (words : List Str) :
    ℕ → ℕ → List Entity × List Str → List Entity
  | _, 0, st => st.1
  | i, fuel + 1, st =>
    if i < words.length then
      let entities := runInference env (chunkTextAt words chunkSize i)
        labels threshold
      claimC6MergeGo env text labels threshold chunkSize words
        (i + (chunkSize - 50)) fuel
        (chunkDedupStep entities ((nthD (wsTokenStarts text) i 0 : ℕ) : ℤ) st)
    else st.1

/-- Modelled from the spec: the merged result claim C6 describes. -/
def claimC6Merge (env : GlinerEnv) (text : Str) (labels : List Str)
    (threshold : ℚ) (chunkSize : ℕ) : List Entity :=
  let words := jsSplitWs text
  stableSortBy (fun a b => a.start < b.start)
    (claimC6MergeGo env text labels threshold chunkSize words
      0 (words.length + 1) ([], []))

/-! ### Auxiliary predicates and witness states for the tokenizer claims -/

/-- Invariant of the Viterbi table: size `n + 1` and every `prev` link from a
positive position points strictly backward (this is what makes the
backtracking `while (pos > 0)` loop terminate). -/
def VitInv (n : ℕ) (best : List VitEntry) : Prop :=
  best.length = n + 1 ∧ ∀ p, 1 ≤ p → ∀ e : VitEntry, best.get? p = some e → e.2.1 < p

/-- A concrete (empty-vocabulary) Unigram tokenizer state. -/
def uniW : UnigramState :=
  { vocab := [], addedTokens := [], byteTokens := [], unkTokenId := 0,
    clsTokenId := 1, sepTokenId := 2, maxPieceLength := 0, nfkc := id }

/-- A concrete (empty-vocabulary) BPE tokenizer state in WordPiece mode. -/
def bpeW : BPEState :=
  { vocab := [], mergeRanks := [], addedTokens := [],
    byteEncoder := buildByteEncoder, unkTokenId := 0, clsTokenId := 1,
    sepTokenId := 2, isByteLevelBPE := false, addPrefixSpace := false }

/-! ## Anonymization (`src/services/anonymization.ts`)

The PII regexes are embedded as an abstract syntax (`RX`) together with a
backtracking matcher (`mall`) that returns every way a pattern can match at
a position, in JS backtracking priority order (greedy quantifiers, ordered
alternation); the head of that list is the match JS produces.  `rxExecAll`
is the `g`-flag `exec` loop: leftmost match from the current last index,
then continue from the match end.  The matcher fuel only bounds recursion
depth and is chosen far above any reachable depth; none of the patterns
below can match the empty string, so the source's `while (exec)` loops
advance.  The `i` flag is modelled by also testing the upper/lower-case
variant of the subject character against a class (equivalent to JS
canonicalization on the ASCII ranges these classes use).
`new RegExp(escapeRegex(v), flags)` matches `v` literally, so the two
replacement helpers (`jsReplaceWordCI` for the word-bounded
case-insensitive replace of `anonymizeWithRegex`, `jsReplaceAllLit` for
`reversePIIMappings`) scan for literal occurrences; `$`-escapes in
replacement strings are not modelled (no placeholder contains `$`).
JS objects (`mappings`, `counters`) are insertion-ordered association
lists (`assocSet` overwrites in place or appends). -/

/-- Overwrite the first binding of `k`, or append one (JS object property
assignment, insertion order preserved). -/
def assocSet {α β : Type} [DecidableEq α] : List (α × β) → α → β → List (α × β)
  | [], k, v => [(k, v)]
  | (k0, v0) :: rest, k, v =>
    if k0 = k then (k0, v) :: rest else (k0, v0) :: assocSet rest k v

/-- The decimal digit characters. -/
def digitChars : Str := ['0', '1', '2', '3', '4', '5', '6', '7', '8', '9']

/-- Decimal digits of a positive number, most significant first (fuel
`n + 1` suffices). -/
def natToStrGo : ℕ → ℕ → Str
  | 0, _ => []
  | fuel + 1, n =>
    if n = 0 then [] else natToStrGo fuel (n / 10) ++ [nthD digitChars (n % 10) '0']

/-- Decimal rendering of a counter, as a JS template literal renders a
nonnegative integer. -/
def natToStr (n : ℕ) : Str :=
  if n = 0 then ['0'] else natToStrGo (n + 1) n

/-- A placeholder key: the template literal \x7b`<$\x7btype\x7d $\x7bcounter\x7d>`\x7d. -/
def phKey (t : Str) (c : ℕ) : Str :=
  '<' :: (t ++ ' ' :: (natToStr c ++ ['>']))

/-- Regex abstract syntax: character classes as range lists, sequencing,
ordered alternation, the `\x7bm,n\x7d`-family quantifier (`hi = none` is
unbounded), the `\b` assertion, and the capturing group (group 1). -/
inductive RX where
  | eps : RX
  | ch (neg : Bool) (ranges : List (Char × Char)) : RX
  | seq (a b : RX) : RX
  | alt (a b : RX) : RX
  | rep (lo : ℕ) (hi : Option ℕ) (r : RX) : RX
  | wordB : RX
  | grp (r : RX) : RX

/-- Does character `c` match a class, with the `i`-flag canonicalization? -/
def clsMatch (ci : Bool) (neg : Bool) (rs : List (Char × Char)) (c : Char) : Bool :=
  let inR : Char → Bool := fun c => rs.any (fun p => decide (p.1 ≤ c ∧ c ≤ p.2))
  let hit := if ci then inR c || inR c.toLower || inR c.toUpper else inR c
  if neg then !hit else hit

/-- All matches of `r` at position `i` of `s` as `(end, group 1 span)`
pairs, in backtracking priority order (the head is the JS match).  A
quantifier iteration that consumes nothing is not continued (none of the
embedded patterns has a nullable quantifier body). -/
def mall (ci : Bool) (s : Str) : ℕ → RX → ℕ → List (ℕ × Option (ℕ × ℕ))
  | 0, _, _ => []
  | fuel + 1, r, i =>
    match r with
    | RX.eps => [(i, none)]
    | RX.ch neg rs =>
      match s.get? i with
      | some c => if clsMatch ci neg rs c then [(i + 1, none)] else []
      | none => []
    | RX.wordB => if jsWordBoundary s i then [(i, none)] else []
    | RX.grp r0 => (mall ci s fuel r0 i).map (fun m => (m.1, some (i, m.1)))
    | RX.seq a b =>
      (mall ci s fuel a i).flatMap (fun m =>
        (mall ci s fuel b m.1).map (fun m2 => (m2.1, m.2 <|> m2.2)))
    | RX.alt a b => mall ci s fuel a i ++ mall ci s fuel b i
    | RX.rep lo hi r0 =>
      match lo, hi with
      | 0, some 0 => [(i, none)]
      | 0, _ =>
        ((mall ci s fuel r0 i).flatMap (fun m =>
          if i < m.1 then
            (mall ci s fuel (RX.rep 0 (hi.map (fun k => k - 1)) r0) m.1).map
              (fun m2 => (m2.1, m.2 <|> m2.2))
          else []))
        ++ [(i, none)]
      | lo0 + 1, _ =>
        (mall ci s fuel r0 i).flatMap (fun m =>
          (mall ci s fuel (RX.rep lo0 (hi.map (fun k => k - 1)) r0) m.1).map
            (fun m2 => (m2.1, m.2 <|> m2.2)))

/-- Node count of a pattern, used only to size the matcher fuel. -/
def rxSize : RX → ℕ
  | RX.eps => 1
  | RX.ch _ _ => 1
  | RX.wordB => 1
  | RX.grp r => rxSize r + 1
  | RX.seq a b => rxSize a + rxSize b + 1
  | RX.alt a b => rxSize a + rxSize b + 1
  | RX.rep lo _ r => rxSize r + lo + 1

/-- Leftmost match of `r` at or after position `i`: `(start, end, group)`. -/
def rxFirstFrom (ci : Bool) (r : RX) (s : Str) : ℕ → ℕ → Option (ℕ × ℕ × Option (ℕ × ℕ))
  | 0, _ => none
  | fuel + 1, i =>
    if i ≤ s.length then
      match (mall ci s ((s.length + 2) * (rxSize r + 2)) r i).head? with
      | some m => some (i, m.1, m.2)
      | none => rxFirstFrom ci r s fuel (i + 1)
    else none

/-- The `while ((match = pattern.exec(text)) !== null)` loop of a `g`-flag
regex: each iteration resumes at the previous match's end (bumping by one
on an empty match; the embedded patterns never match empty). -/
def rxExecAllGo (ci : Bool) (r : RX) (s : Str) : ℕ → ℕ → List (ℕ × ℕ × Option (ℕ × ℕ))
  | 0, _ => []
  | fuel + 1, i =>
    match rxFirstFrom ci r s (s.length + 2) i with
    | none => []
    | some m =>
      m :: rxExecAllGo ci r s fuel (if m.2.1 = m.1 then m.1 + 1 else m.2.1)

/-- All matches of a `g`-flag regex over `s`, in order. -/
def rxExecAll (ci : Bool) (r : RX) (s : Str) : List (ℕ × ℕ × Option (ℕ × ℕ)) :=
  rxExecAllGo ci r s (s.length + 2) 0

/-! ### The PII patterns (`STRUCTURED_PII_PATTERNS`, `CONTEXT_PII_PATTERNS`) -/

/-- A single literal character. -/
def rxLit1 (c : Char) : RX := RX.ch false [(c, c)]

/-- A literal string. -/
def rxLit (s : Str) : RX := s.foldr (fun c r => RX.seq (rxLit1 c) r) RX.eps

/-- Ordered alternation of a list of patterns (an empty list matches
nothing). -/
def rxAlts : List RX → RX
  | [] => RX.ch false []
  | [r] => r
  | r :: rest => RX.alt r (rxAlts rest)

/-- Sequence of a list of patterns. -/
def rxSeqs (l : List RX) : RX := l.foldr RX.seq RX.eps

/-- `?` -/
def rxOpt (r : RX) : RX := RX.rep 0 (some 1) r

/-- `*` -/
def rxStar (r : RX) : RX := RX.rep 0 none r

/-- `+` -/
def rxPlus (r : RX) : RX := RX.rep 1 none r

/-- The ranges of the JS `\s` class (the same code points as `jsIsSpace`). -/
def spaceRanges : List (Char × Char) :=
  [(Char.ofNat 0x9, Char.ofNat 0xD), (' ', ' '),
   (Char.ofNat 0xA0, Char.ofNat 0xA0), (Char.ofNat 0x1680, Char.ofNat 0x1680),
   (Char.ofNat 0x2000, Char.ofNat 0x200A), (Char.ofNat 0x2028, Char.ofNat 0x2029),
   (Char.ofNat 0x202F, Char.ofNat 0x202F), (Char.ofNat 0x205F, Char.ofNat 0x205F),
   (Char.ofNat 0x3000, Char.ofNat 0x3000), (Char.ofNat 0xFEFF, Char.ofNat 0xFEFF)]

/-- `\d` -/
def dClass : RX := RX.ch false [('0', '9')]

/-- `\s` -/
def sClass : RX := RX.ch false spaceRanges

/-- `[-.\s]` -/
def sepClass : RX := RX.ch false ([('-', '-'), ('.', '.')] ++ spaceRanges)

/-- `[A-Z]` -/
def azClass : RX := RX.ch false [('A', 'Z')]

/-- `[a-z]` -/
def lowClass : RX := RX.ch false [('a', 'z')]

/-- `phone: /(?:\+\d\x7b1,3\x7d[-.\s]?)?\(?\d\x7b1,4\x7d\)?[-.\s]?\d\x7b2,4\x7d[-.\s]?\d\x7b3,4\x7d[-.\s]?\d\x7b0,4\x7d\b/g` -/
def phonePattern : RX := rxSeqs
  [rxOpt (rxSeqs [rxLit1 '+', RX.rep 1 (some 3) dClass, rxOpt sepClass]),
   rxOpt (rxLit1 '('),
   RX.rep 1 (some 4) dClass,
   rxOpt (rxLit1 ')'),
   rxOpt sepClass,
   RX.rep 2 (some 4) dClass,
   rxOpt sepClass,
   RX.rep 3 (some 4) dClass,
   rxOpt sepClass,
   RX.rep 0 (some 4) dClass,
   RX.wordB]

/-- `email: /\b[A-Za-z0-9._%+-]+@[A-Za-z0-9.-]+\.[A-Z|a-z]\x7b2,\x7d\b/g` -/
def emailPattern : RX := rxSeqs
  [RX.wordB,
   rxPlus (RX.ch false [('A', 'Z'), ('a', 'z'), ('0', '9'), ('.', '.'),
     ('_', '_'), ('%', '%'), ('+', '+'), ('-', '-')]),
   rxLit1 '@',
   rxPlus (RX.ch false [('A', 'Z'), ('a', 'z'), ('0', '9'), ('.', '.'), ('-', '-')]),
   rxLit1 '.',
   RX.rep 2 none (RX.ch false [('A', 'Z'), ('|', '|'), ('a', 'z')]),
   RX.wordB]

/-- `creditCard: /\b(?:\d\x7b4\x7d[-\s]?)\x7b3\x7d\d\x7b4\x7d\b/g` -/
def creditCardPattern : RX := rxSeqs
  [RX.wordB,
   RX.rep 3 (some 3) (RX.seq (RX.rep 4 (some 4) dClass)
     (rxOpt (RX.ch false (('-', '-') :: spaceRanges)))),
   RX.rep 4 (some 4) dClass,
   RX.wordB]

/-- `ssn: /\b\d\x7b3\x7d-\d\x7b2\x7d-\d\x7b4\x7d\b/g` -/
def ssnPattern : RX := rxSeqs
  [RX.wordB, RX.rep 3 (some 3) dClass, rxLit1 '-', RX.rep 2 (some 2) dClass,
   rxLit1 '-', RX.rep 4 (some 4) dClass, RX.wordB]

/-- `passport: /\b[A-Z]\x7b1,2\x7d\d\x7b6,9\x7d\b/g` -/
def passportPattern : RX := rxSeqs
  [RX.wordB, RX.rep 1 (some 2) azClass, RX.rep 6 (some 9) dClass, RX.wordB]

/-- The street-suffix alternatives of the `address` pattern, in source
order. -/
def addressSuffixes : List Str :=
  ["Street", "St", "Avenue", "Ave", "Road", "Rd", "Boulevard", "Blvd",
   "Drive", "Dr", "Lane", "Ln", "Court", "Ct", "Circle", "Cir", "Terrace",
   "Ter", "Way", "Park", "Parkway", "Pkwy", "Place", "Pl", "Square", "Sq",
   "Trail", "Trl", "straat", "laan", "weg", "plein", "gracht", "kade",
   "singel"].map String.data

/-- `address: /\b\d+\s+[A-Za-z\s]+(?:Street|…|singel)\b/gi` -/
def addressPattern : RX := rxSeqs
  [RX.wordB, rxPlus dClass, rxPlus sClass,
   rxPlus (RX.ch false ([('A', 'Z'), ('a', 'z')] ++ spaceRanges)),
   rxAlts (addressSuffixes.map rxLit),
   RX.wordB]

/-- `healthInsuranceId: /\b[A-Z]\x7b2\x7d\d\x7b10\x7d\b/g` -/
def healthInsuranceIdPattern : RX := rxSeqs
  [RX.wordB, RX.rep 2 (some 2) azClass, RX.rep 10 (some 10) dClass, RX.wordB]

/-- `dateOfBirth: /\b(?:0[1-9]|1[0-2])[-\/](?:0[1-9]|[12]\d|3[01])[-\/](?:19|20)\d\x7b2\x7d\b/g` (the class `[-\/]` is dash or slash) -/
def dateOfBirthPattern : RX := rxSeqs
  [RX.wordB,
   RX.alt (RX.seq (rxLit1 '0') (RX.ch false [('1', '9')]))
     (RX.seq (rxLit1 '1') (RX.ch false [('0', '2')])),
   RX.ch false [('-', '-'), ('/', '/')],
   rxAlts [RX.seq (rxLit1 '0') (RX.ch false [('1', '9')]),
     RX.seq (RX.ch false [('1', '2')]) dClass,
     RX.seq (rxLit1 '3') (RX.ch false [('0', '1')])],
   RX.ch false [('-', '-'), ('/', '/')],
   RX.alt (rxLit ("19".data)) (rxLit ("20".data)),
   RX.rep 2 (some 2) dClass,
   RX.wordB]

/-- `ipAddress: /\b(?:[0-9]\x7b1,3\x7d\.)\x7b3\x7d[0-9]\x7b1,3\x7d\b/g` -/
def ipAddressPattern : RX := rxSeqs
  [RX.wordB,
   RX.rep 3 (some 3) (RX.seq (RX.rep 1 (some 3) dClass) (rxLit1 '.')),
   RX.rep 1 (some 3) dClass,
   RX.wordB]

/-- `iban: /\b[A-Z]\x7b2\x7d\d\x7b2\x7d\s?[A-Z]\x7b4\x7d\s?[\d\s]\x7b8,26\x7d\b/g` -/
def ibanPattern : RX := rxSeqs
  [RX.wordB, RX.rep 2 (some 2) azClass, RX.rep 2 (some 2) dClass,
   rxOpt sClass, RX.rep 4 (some 4) azClass, rxOpt sClass,
   RX.rep 8 (some 26) (RX.ch false (('0', '9') :: spaceRanges)),
   RX.wordB]

/-- `licensePlate: /\b\d\x7b1,2\x7d-[A-Z]\x7b2,3\x7d-\d\x7b1,2\x7d\b|\b[A-Z]\x7b2\x7d-\d\x7b2,3\x7d-[A-Z]\x7b1,2\x7d\b/g` -/
def licensePlatePattern : RX :=
  RX.alt
    (rxSeqs [RX.wordB, RX.rep 1 (some 2) dClass, rxLit1 '-',
      RX.rep 2 (some 3) azClass, rxLit1 '-', RX.rep 1 (some 2) dClass, RX.wordB])
    (rxSeqs [RX.wordB, RX.rep 2 (some 2) azClass, rxLit1 '-',
      RX.rep 2 (some 3) dClass, rxLit1 '-', RX.rep 1 (some 2) azClass, RX.wordB])

/-- `STRUCTURED_PII_PATTERNS` in object-entry order, with each pattern's
`i`-flag. -/
def STRUCTURED_PII_PATTERNS : List (Str × RX × Bool) :=
  [("phone".data, phonePattern, false),
   ("email".data, emailPattern, false),
   ("creditCard".data, creditCardPattern, false),
   ("ssn".data, ssnPattern, false),
   ("passport".data, passportPattern, false),
   ("address".data, addressPattern, true),
   ("healthInsuranceId".data, healthInsuranceIdPattern, false),
   ("dateOfBirth".data, dateOfBirthPattern, false),
   ("ipAddress".data, ipAddressPattern, false),
   ("iban".data, ibanPattern, false),
   ("licensePlate".data, licensePlatePattern, false)]

/-- The `(?:is|:)?\s*` tail every context pattern shares after its keyword
and `\s+`. -/
def ctxTail : RX := RX.seq (rxPlus sClass)
  (RX.seq (rxOpt (RX.alt (rxLit ("is".data)) (rxLit (":".data)))) (rxStar sClass))

/-- `ssn: /(?:BSN|bsn|sofi|burgerservicenummer|social\s+security)\s+(?:is|:)?\s*(\d\x7b7,9\x7d)/gi` -/
def ssnCtxPattern : RX := rxSeqs
  [rxAlts [rxLit ("BSN".data), rxLit ("bsn".data), rxLit ("sofi".data),
    rxLit ("burgerservicenummer".data),
    rxSeqs [rxLit ("social".data), rxPlus sClass, rxLit ("security".data)]],
   ctxTail,
   RX.grp (RX.rep 7 (some 9) dClass)]

/-- `phone: /(?:telefoon(?:nummer)?|phone\s*(?:number)?|tel|mobiel|mobile|nummer)\s+(?:is|:)?\s*(\+?\d[\d\s\-.]\x7b6,17\x7d\d)/gi` -/
def phoneCtxPattern : RX := rxSeqs
  [rxAlts [RX.seq (rxLit ("telefoon".data)) (rxOpt (rxLit ("nummer".data))),
    rxSeqs [rxLit ("phone".data), rxStar sClass, rxOpt (rxLit ("number".data))],
    rxLit ("tel".data), rxLit ("mobiel".data), rxLit ("mobile".data),
    rxLit ("nummer".data)],
   ctxTail,
   RX.grp (rxSeqs [rxOpt (rxLit1 '+'), dClass,
     RX.rep 6 (some 17) (RX.ch false ([('0', '9'), ('-', '-'), ('.', '.')] ++ spaceRanges)),
     dClass])]

/-- `bankAccount: /(?:rekening(?:nummer)?|account\s*(?:number)?|IBAN)\s+(?:is|:)?\s*([A-Z]\x7b2\x7d\d\x7b2\x7d\s?[A-Z]\x7b4\x7d\s?[\d\s]\x7b8,26\x7d|\d\x7b9,17\x7d)/gi` -/
def bankCtxPattern : RX := rxSeqs
  [rxAlts [RX.seq (rxLit ("rekening".data)) (rxOpt (rxLit ("nummer".data))),
    rxSeqs [rxLit ("account".data), rxStar sClass, rxOpt (rxLit ("number".data))],
    rxLit ("IBAN".data)],
   ctxTail,
   RX.grp (RX.alt
     (rxSeqs [RX.rep 2 (some 2) azClass, RX.rep 2 (some 2) dClass,
       rxOpt sClass, RX.rep 4 (some 4) azClass, rxOpt sClass,
       RX.rep 8 (some 26) (RX.ch false (('0', '9') :: spaceRanges))])
     (RX.rep 9 (some 17) dClass))]

/-- `CONTEXT_PII_PATTERNS` in source order (all `gi`). -/
def CONTEXT_PII_PATTERNS : List (Str × RX) :=
  [("ssn".data, ssnCtxPattern),
   ("phone".data, phoneCtxPattern),
   ("bankAccount".data, bankCtxPattern)]

/-- `personPattern: /\b[A-Z][a-z]+(?:\s+[A-Z][a-z]+)*\b/g` (case-sensitive). -/
def personPattern : RX := rxSeqs
  [RX.wordB, azClass, rxPlus lowClass,
   rxStar (rxSeqs [rxPlus sClass, azClass, rxPlus lowClass]),
   RX.wordB]

/-! ### The regex fallback path (`anonymizeWithRegex`) -/

/-- One collected match of the regex path. -/
structure RMatch where
  type : Str
  value : Str
  placeholder : Str

/-- The pre-seeded counters object of `anonymizeWithRegex`, in source
order. -/
def regexCounters0 : List (Str × ℕ) :=
  [("phone".data, 1), ("email".data, 1), ("creditCard".data, 1),
   ("ssn".data, 1), ("passport".data, 1), ("address".data, 1),
   ("bankAccount".data, 1), ("healthInsuranceId".data, 1),
   ("dateOfBirth".data, 1), ("ipAddress".data, 1), ("person".data, 1),
   ("iban".data, 1), ("licensePlate".data, 1)]

/-- Push a match: placeholder from the type's current counter, then
increment that counter. -/
def rmPush (st : List RMatch × List (Str × ℕ)) (t v : Str) :
    List RMatch × List (Str × ℕ) :=
  (st.1 ++ [⟨t, v, phKey t ((assocGet st.2 t).getD 0)⟩],
   assocSet st.2 t ((assocGet st.2 t).getD 0 + 1))

/-- One structured pattern's collection loop of `anonymizeWithRegex`. -/
def regexStructuredStep (text : Str) (st : List RMatch × List (Str × ℕ))
    (p : Str × RX × Bool) : List RMatch × List (Str × ℕ) :=
  (rxExecAll p.2.2 p.2.1 text).foldl (fun st m =>
    rmPush st p.1 (jsSlice text m.1 m.2.1)) st

/-- The structured-pattern collection loop of `anonymizeWithRegex`. -/
def regexStructuredMatches (text : Str) : List RMatch × List (Str × ℕ) :=
  STRUCTURED_PII_PATTERNS.foldl (regexStructuredStep text) ([], regexCounters0)

/-- One context pattern's collection loop: seed the type's counter if
unset, trim capture group 1, skip values already collected.  (The group
always participates in these patterns, so the `none` case is
unreachable.) -/
def regexContextStep (text : Str) (st : List RMatch × List (Str × ℕ))
    (p : Str × RX) : List RMatch × List (Str × ℕ) :=
  let st1 : List RMatch × List (Str × ℕ) :=
    (st.1, if (assocGet st.2 p.1).getD 0 = 0 then assocSet st.2 p.1 1 else st.2)
  (rxExecAll true p.2 text).foldl (fun st m =>
    match m.2.2 with
    | none => st
    | some g =>
      let value := jsTrim (jsSlice text g.1 g.2)
      if st.1.any (fun m0 => m0.value = value) then st
      else rmPush st p.1 value) st1

/-- The context-pattern collection loop of `anonymizeWithRegex`. -/
def regexAfterContext (text : Str) : List RMatch × List (Str × ℕ) :=
  CONTEXT_PII_PATTERNS.foldl (regexContextStep text) (regexStructuredMatches text)

/-- The common-word list of `isLikelyPersonName`. -/
def commonWords : List Str :=
  ["The", "And", "Or", "But", "In", "On", "At", "To", "For", "Of", "With",
   "By", "From", "Is", "Are", "Was", "Were", "Been", "Be", "Have", "Has",
   "Had", "Do", "Does", "Did", "Will", "Would", "Should", "Could", "May",
   "Might", "Must", "Can",
   "Het", "Een", "Dat", "Die", "Dit", "Met", "Van", "Voor", "Naar",
   "Maar"].map String.data

/-- `isLikelyPersonName`: not a common word, more than one word, and every
word starts with a capital and is longer than one character. -/
def isLikelyPersonName (t : Str) : Bool :=
  if commonWords.contains t then false
  else
    let words := jsSplitWs t
    if words.length = 1 then false
    else words.all (fun w =>
      (match w.get? 0 with
       | some c => decide ('A' ≤ c ∧ c ≤ 'Z')
       | none => false) && decide (1 < w.length))

/-- One person-pattern match's collection step of `anonymizeWithRegex`. -/
def regexPersonStep (text : Str) (st : List RMatch × List (Str × ℕ))
    (m : ℕ × ℕ × Option (ℕ × ℕ)) : List RMatch × List (Str × ℕ) :=
  let value := jsSlice text m.1 m.2.1
  if !(st.1.any (fun m0 => m0.value = value)) && isLikelyPersonName value then
    rmPush st ("person".data) value
  else st

/-- The person-name collection loop of `anonymizeWithRegex`. -/
def regexAfterPerson (text : Str) : List RMatch × List (Str × ℕ) :=
  (rxExecAll false personPattern text).foldl (regexPersonStep text)
    (regexAfterContext text)

/-- The match list sorted by descending first occurrence of the value
(`text.indexOf(b.value) - text.indexOf(a.value)` descending). -/
def regexSortedMatches (text : Str) : List RMatch :=
  stableSortBy (fun a b => jsIndexOf text b.value 0 < jsIndexOf text a.value 0)
    (regexAfterPerson text).1

/-- The `seen`-set filter: keep the first match of each lower-cased value. -/
def dedupCIGo : List Str → List RMatch → List RMatch
  | _, [] => []
  | seen, m :: rest =>
    if seen.contains (jsToLower m.value) then dedupCIGo seen rest
    else m :: dedupCIGo (jsToLower m.value :: seen) rest

/-- `uniqueMatches` of `anonymizeWithRegex`. -/
def regexUniqueMatches (text : Str) : List RMatch :=
  dedupCIGo [] (regexSortedMatches text)

/-- Scan of `subject.replace(new RegExp('\\b' + lit + '\\b', 'gi'), repl)`:
replace case-insensitive word-bounded literal occurrences left to right,
resuming after each match. -/
def jsReplaceWordCIGo (needle repl subject : Str) : ℕ → ℕ → Str
  | 0, _ => []
  | fuel + 1, i =>
    if h : i < subject.length then
      if 0 < needle.length ∧ i + needle.length ≤ subject.length ∧
          jsToLower (jsSlice subject i (i + needle.length)) = jsToLower needle ∧
          jsWordBoundary subject i = true ∧
          jsWordBoundary subject (i + needle.length) = true then
        repl ++ jsReplaceWordCIGo needle repl subject fuel (i + needle.length)
      else subject.get ⟨i, h⟩ :: jsReplaceWordCIGo needle repl subject fuel (i + 1)
    else []

/-- `subject.replace(/\bvalue\b/gi, repl)` with `value` escaped to a
literal. -/
def jsReplaceWordCI (subject needle repl : Str) : Str :=
  jsReplaceWordCIGo needle repl subject (subject.length + 1) 0

/-- One iteration of the replacement-and-mapping loop of
`anonymizeWithRegex`. -/
def regexApplyStep (st : Str × List (Str × Str)) (m : RMatch) :
    Str × List (Str × Str) :=
  (jsReplaceWordCI st.1 m.value m.placeholder,
   assocSet st.2 m.placeholder m.value)

/-- The replacement-and-mapping loop and result of `anonymizeWithRegex`:
`(anonymized, mappings)`. -/
def anonymizeWithRegex (text : Str) : Str × List (Str × Str) :=
  (regexUniqueMatches text).foldl regexApplyStep (text, [])

/-- Scan of `result.replace(new RegExp(escapeRegex(ph), 'g'), original)`:
replace literal occurrences left to right, resuming after each match. -/
def jsReplaceAllLitGo (needle repl subject : Str) : ℕ → ℕ → Str
  | 0, _ => []
  | fuel + 1, i =>
    if h : i < subject.length then
      if 0 < needle.length ∧ i + needle.length ≤ subject.length ∧
          jsSlice subject i (i + needle.length) = needle then
        repl ++ jsReplaceAllLitGo needle repl subject fuel (i + needle.length)
      else subject.get ⟨i, h⟩ :: jsReplaceAllLitGo needle repl subject fuel (i + 1)
    else []

/-- Global literal replacement. -/
def jsReplaceAllLit (subject needle repl : Str) : Str :=
  jsReplaceAllLitGo needle repl subject (subject.length + 1) 0

/-- `reversePIIMappings`: replace each placeholder globally by its original
value, in mapping insertion order. -/
def reversePIIMappings (text : Str) (mappings : List (Str × Str)) : Str :=
  mappings.foldl (fun acc p => jsReplaceAllLit acc p.1 p.2) text

/-! ### The hybrid path (`anonymizeHybrid`) -/

/-- `PII_LABELS` of `config.ts`. -/
def PII_LABELS : List Str :=
  ["person", "first name", "last name", "email address", "phone number",
   "street address", "city", "country", "credit card number",
   "social security number", "passport number", "driver license number",
   "date of birth", "ip address", "bank account number", "iban",
   "medical condition", "organization", "url", "username", "password",
   "license plate"].map String.data

/-- `LABEL_TO_TYPE` of `config.ts`. -/
def LABEL_TO_TYPE : List (Str × Str) :=
  [("person", "person"), ("first name", "person"), ("last name", "person"),
   ("email address", "email"), ("phone number", "phone"),
   ("street address", "address"), ("city", "location"),
   ("country", "location"), ("credit card number", "creditCard"),
   ("social security number", "ssn"), ("passport number", "passport"),
   ("driver license number", "driverLicense"),
   ("date of birth", "dateOfBirth"), ("ip address", "ipAddress"),
   ("bank account number", "bankAccount"), ("iban", "bankAccount"),
   ("medical condition", "medicalCondition"),
   ("organization", "organization"), ("url", "url"),
   ("username", "username"), ("password", "password"),
   ("license plate", "licensePlate")].map
    (fun p => (p.1.data, p.2.data))

/-- `LABEL_TO_TYPE[entity.label] || entity.label` (the mapped types are all
nonempty, so `||` falls through only when the label is unmapped). -/
def glinerTypeOf (label : Str) : Str :=
  (assocGet LABEL_TO_TYPE label).getD label

/-- A `PiiMatch` of the hybrid path. -/
structure PiiM where
  type : Str
  value : Str
  start : ℤ
  «end» : ℤ
  source : Bool

/-- The counter seeding of the GLiNER loop (`if (!counters[type])
counters[type] = 1`). -/
def hybridCounters0 (ents : List Entity) : List (Str × ℕ) :=
  ents.foldl (fun cs e =>
    if (assocGet cs (glinerTypeOf e.label)).getD 0 = 0 then
      assocSet cs (glinerTypeOf e.label) 1
    else cs) []

/-- `allMatches` of `anonymizeHybrid`: GLiNER entities, then structured
regex matches, then context matches (trimmed capture located by
`indexOf(value, matchIndex)`, falling back to the match index). -/
def hybridAllMatches (text : Str) (ents : List Entity) : List PiiM :=
  ents.map (fun e => ⟨glinerTypeOf e.label, e.text, e.start, e.«end», true⟩)
  ++ STRUCTURED_PII_PATTERNS.flatMap (fun p =>
      (rxExecAll p.2.2 p.2.1 text).map (fun m =>
        ⟨p.1, jsSlice text m.1 m.2.1, (m.1 : ℤ), (m.2.1 : ℤ), false⟩))
  ++ CONTEXT_PII_PATTERNS.flatMap (fun p =>
      (rxExecAll true p.2 text).flatMap (fun m =>
        match m.2.2 with
        | none => []
        | some g =>
          let value := jsTrim (jsSlice text g.1 g.2)
          let vs := jsIndexOf text value m.1
          let start : ℤ := if 0 ≤ vs then vs else (m.1 : ℤ)
          [⟨p.1, value, start, start + value.length, false⟩]))

/-- The dedup comparator of `anonymizeHybrid` as `cmp a b < 0`: ascending
start, then descending end, then GLiNER first. -/
def hybridLt (a b : PiiM) : Bool :=
  if a.start = b.start then
    if a.«end» = b.«end» then a.source
    else decide (b.«end» < a.«end»)
  else decide (a.start < b.start)

/-- `sorted` of `anonymizeHybrid`. -/
def hybridSorted (text : Str) (ents : List Entity) : List PiiM :=
  stableSortBy hybridLt (hybridAllMatches text ents)

/-- `deduped`: keep a match only when it overlaps no kept match. -/
def hybridDeduped (text : Str) (ents : List Entity) : List PiiM :=
  (hybridSorted text ents).foldl (fun acc m =>
    if acc.any (fun m0 => decide (m.start < m0.«end») && decide (m0.start < m.«end»)) then
      acc
    else acc ++ [m]) []

/-- `deduped.sort((a, b) => b.start - a.start)`: descending start, the
placeholder-assignment order. -/
def hybridAssignOrder (text : Str) (ents : List Entity) : List PiiM :=
  stableSortBy (fun a b => decide (b.start < a.start)) (hybridDeduped text ents)

/-- One iteration of the placeholder-assignment loop of `anonymizeHybrid`:
splice the placeholder over the span (descending starts keep earlier
offsets valid), record the mapping, bump the per-type counter. -/
def hybridAssignStep (st : Str × List (Str × Str) × List (Str × ℕ))
    (m : PiiM) : Str × List (Str × Str) × List (Str × ℕ) :=
  let cnt0 := (assocGet st.2.2 m.type).getD 0
  let cnt := if cnt0 = 0 then 1 else cnt0
  let ph := phKey m.type cnt
  (jsSliceZ st.1 0 m.start ++ ph ++ jsSliceZ st.1 m.«end» st.1.length,
   assocSet st.2.1 ph m.value,
   assocSet st.2.2 m.type (cnt + 1))

/-- The placeholder-assignment loop of `anonymizeHybrid` over a given
entity list. -/
def anonymizeHybridCore (text : Str) (ents : List Entity) : Str × List (Str × Str) :=
  let r := (hybridAssignOrder text ents).foldl hybridAssignStep
    (text, [], hybridCounters0 ents)
  (r.1, r.2.1)

/-- `anonymizeHybrid`: GLiNER detection (`detectPII(text)` with the default
labels and threshold) followed by the merge, dedup and assignment above. -/
def anonymizeHybrid (env : GlinerEnv) (text : Str) : Str × List (Str × Str) :=
  anonymizeHybridCore text (detectPIIDefault env text PII_LABELS)

/-! ### Proof-side predicates for the placeholder claims -/

/-- Decimal value of a digit string (left fold), used to invert
`natToStr`. -/
def strVal (s : Str) : ℕ :=
  s.foldl (fun a c => 10 * a + (c.toNat - 48)) 0

/-- Key invariant of the hybrid assignment loop: every mapping key is a
well-formed placeholder whose counter is strictly below the current counter
of its type. -/
def HybKeyInv (mp : List (Str × Str)) (cs : List (Str × ℕ)) : Prop :=
  ∀ k ∈ mp.map Prod.fst, ∃ t c, 1 ≤ c ∧ c + 1 ≤ (assocGet cs t).getD 0 ∧
    k = phKey t c

/-- Invariant of the regex collection phases: placeholders are pairwise
distinct and each match's placeholder is the well-formed key of a counter
strictly below the current counter of its type. -/
def RegInv (st : List RMatch × List (Str × ℕ)) : Prop :=
  (st.1.map RMatch.placeholder).Nodup ∧
  ∀ m ∈ st.1, ∃ c, 1 ≤ c ∧ c + 1 ≤ (assocGet st.2 m.type).getD 0 ∧
    m.placeholder = phKey m.type c

/-- Every pre-seeded counter type stays at count at least 1. -/
def CoverOne (cs : List (Str × ℕ)) : Prop :=
  ∀ u ∈ regexCounters0.map Prod.fst, 1 ≤ (assocGet cs u).getD 0

end SafeTranscript

namespace SafeTranscript

/-! ### Basic facts about the string primitives -/

theorem jsSlice_length (s : Str) (a b : ℕ) (h1 : a ≤ b) (h2 : b ≤ s.length) :
    (jsSlice s a b).length = b - a := by
  simp only [jsSlice, List.length_take, List.length_drop]
  omega

theorem takeWordRun_le (s : Str) : takeWordRun s ≤ s.length :=
  (List.takeWhile_prefix _).sublist.length_le

theorem extendRunGo_le : ∀ (fuel : ℕ) (s : Str), extendRunGo fuel s ≤ s.length := by
  intro fuel
  induction fuel with
  | zero => intro s; simp [extendRunGo]
  | succ n ih =>
    intro s
    match s with
    | [] => simp [extendRunGo]
    | c :: rest =>
      rw [extendRunGo]
      by_cases hd : (c = '-' || c = '_') = true
      · simp only [hd, if_true]
        by_cases hk : 0 < takeWordRun rest
        · simp only [if_pos hk]
          have h1 : takeWordRun rest ≤ rest.length := takeWordRun_le rest
          have h2 := ih (rest.drop (takeWordRun rest))
          simp only [List.length_drop] at h2
          simp only [List.length_cons]
          omega
        · simp only [if_neg hk, List.length_cons]
          omega
      · simp only [Bool.not_eq_true] at hd
        simp [hd]

theorem extendRun_le (s : Str) : extendRun s ≤ s.length :=
  extendRunGo_le s.length s

theorem drop_cons_of_get? {s : Str} {i : ℕ} {c : Char} (h : s.get? i = some c) :
    s.drop i = c :: s.drop (i + 1) := by
  obtain ⟨hi, hg⟩ := List.get?_eq_some.mp h
  have hc : s[i] = c := by simpa using hg
  rw [List.drop_eq_getElem_cons hi, hc]

theorem takeWordRun_pos {s : Str} {i : ℕ} {c : Char} (h : s.get? i = some c)
    (hw : jsIsWordChar c) : 0 < takeWordRun (s.drop i) := by
  rw [takeWordRun, drop_cons_of_get? h, List.takeWhile_cons, hw]
  simp

theorem splitWordsStep_pos {s : Str} {i k : ℕ}
    (h : splitWordsStep s i = some k) : 0 < k ∧ i + k ≤ s.length := by
  unfold splitWordsStep at h
  cases hg : s.get? i with
  | none => rw [hg] at h; exact absurd h (by simp)
  | some c =>
    rw [hg] at h
    obtain ⟨hi, -⟩ := List.get?_eq_some.mp hg
    by_cases hw : jsIsWordChar c
    · simp only [hw, if_true, Option.some.injEq] at h
      have h1 : 0 < takeWordRun (s.drop i) := takeWordRun_pos hg hw
      have h2 : takeWordRun (s.drop i) ≤ s.length - i := by
        have := takeWordRun_le (s.drop i)
        simpa using this
      have h3 : extendRun (s.drop (i + takeWordRun (s.drop i))) ≤
          s.length - (i + takeWordRun (s.drop i)) := by
        have := extendRun_le (s.drop (i + takeWordRun (s.drop i)))
        simpa using this
      omega
    · simp only [hw, if_false] at h
      by_cases hsp : jsIsSpace c
      · rw [if_pos hsp] at h; exact absurd h (by simp)
      · rw [if_neg hsp] at h
        injection h with h
        omega

theorem wordTriplesOK_mono {s : Str} {lo lo2 : ℕ} {l : List (Str × ℕ × ℕ)}
    (h : WordTriplesOK s lo l) (hle : lo2 ≤ lo) : WordTriplesOK s lo2 l := by
  cases l with
  | nil => trivial
  | cons t rest =>
    obtain ⟨w, a, b⟩ := t
    obtain ⟨h1, h2⟩ := h
    exact ⟨le_trans hle h1, h2⟩

theorem splitWordsGo_ok (s : Str) :
    ∀ (fuel i : ℕ), s.length + 1 - i ≤ fuel →
      WordTriplesOK s i (splitWordsGo s i fuel) := by
  intro fuel
  induction fuel with
  | zero => intro i hfuel; simp [splitWordsGo, WordTriplesOK]
  | succ fuel ih =>
    intro i hfuel
    rw [splitWordsGo]
    by_cases hi : i < s.length
    · simp only [if_pos hi]
      cases hstep : splitWordsStep s i with
      | some k =>
        obtain ⟨hk0, hkle⟩ := splitWordsStep_pos hstep
        refine ⟨le_refl i, by omega, by omega, rfl, ?_⟩
        exact ih (i + k) (by omega)
      | none =>
        show WordTriplesOK s i (splitWordsGo s (i + 1) fuel)
        exact wordTriplesOK_mono (ih (i + 1) (by omega)) (by omega)
    · simp [if_neg hi, WordTriplesOK]

theorem wordTriplesOK_mem {s : Str} {lo : ℕ} {l : List (Str × ℕ × ℕ)}
    (h : WordTriplesOK s lo l) :
    ∀ t ∈ l, lo ≤ t.2.1 ∧ t.2.1 < t.2.2 ∧ t.2.2 ≤ s.length ∧
      t.1 = jsSlice s t.2.1 t.2.2 := by
  induction l generalizing lo with
  | nil => intro t ht; cases ht
  | cons u rest ih =>
    obtain ⟨w, a, b⟩ := u
    obtain ⟨h1, h2, h3, h4, h5⟩ := h
    intro t ht
    rcases List.mem_cons.mp ht with h | h
    · subst h; exact ⟨h1, h2, h3, h4⟩
    · have hrest := ih h5 t h
      refine ⟨?_, hrest.2⟩
      calc lo ≤ a := h1
        _ ≤ b := le_of_lt h2
        _ ≤ t.2.1 := hrest.1

theorem wordTriplesOK_pairwise {s : Str} {lo : ℕ} {l : List (Str × ℕ × ℕ)}
    (h : WordTriplesOK s lo l) :
    l.Pairwise (fun t u => t.2.2 ≤ u.2.1) := by
  induction l generalizing lo with
  | nil => exact List.Pairwise.nil
  | cons t rest ih =>
    obtain ⟨w, a, b⟩ := t
    obtain ⟨h1, h2, h3, h4, h5⟩ := h
    refine List.Pairwise.cons ?_ (ih h5)
    intro u hu
    exact (wordTriplesOK_mem h5 u hu).1

theorem wordTriplesOK_chain {s : Str} {lo : ℕ} {l : List (Str × ℕ × ℕ)}
    (h : WordTriplesOK s lo l) :
    l.Chain' (fun t u => t.2.2 ≤ u.2.1) :=
  List.Pairwise.chain' (wordTriplesOK_pairwise h)

theorem splitWords_ok (s : Str) : WordTriplesOK s 0 (splitWords s) :=
  splitWordsGo_ok s (s.length + 1) 0 (by omega)

/-- C10: for every input string, the word-splitting pass shared by processor
and decoder returns triples `(word, start, end)` that are strictly ordered
and disjoint: each satisfies `0 ≤ start < end ≤ length(text)` and
`word = text.slice(start, end)`, and each start is at least the previous
triple's end. -/
theorem claim_C10 (s : Str) :
    (∀ t ∈ splitWords s, t.2.1 < t.2.2 ∧ t.2.2 ≤ s.length ∧
      t.1 = jsSlice s t.2.1 t.2.2) ∧
    (splitWords s).Chain' (fun t u => t.2.2 ≤ u.2.1) := by
  have hok := splitWords_ok s
  refine ⟨fun t ht => ?_, wordTriplesOK_chain hok⟩
  obtain ⟨-, h2, h3, h4⟩ := wordTriplesOK_mem hok t ht
  exact ⟨h2, h3, h4⟩

/-- Witness for C10 at the concrete input `"ab-c d!"`. -/
theorem claim_C10_witness :
    (("d".data : Str), 5, 6) ∈ splitWords ("ab-c d!".data) ∧
    "d".data = jsSlice ("ab-c d!".data) 5 6 ∧
    (splitWords ("ab-c d!".data)).Chain' (fun t u => t.2.2 ≤ u.2.1) :=
  ⟨by decide,
    ((claim_C10 ("ab-c d!".data)).1 (("d".data : Str), 5, 6) (by decide)).2.2,
    (claim_C10 ("ab-c d!".data)).2⟩

/-! ### The stable sort model -/

theorem insertBy_perm (lt : α → α → Bool) (a : α) (l : List α) :
    (insertBy lt a l).Perm (a :: l) := by
  induction l with
  | nil => simp [insertBy]
  | cons b l ih =>
    rw [insertBy]
    by_cases h : lt b a = true
    · rw [if_pos h]
      exact (List.Perm.cons b ih).trans (List.Perm.swap a b l)
    · rw [if_neg h]

theorem stableSortBy_perm (lt : α → α → Bool) (l : List α) :
    (stableSortBy lt l).Perm l := by
  induction l with
  | nil => simp [stableSortBy]
  | cons a l ih =>
    rw [stableSortBy]
    exact (insertBy_perm lt a (stableSortBy lt l)).trans (List.Perm.cons a ih)

theorem insertBy_pairwise (lt : α → α → Bool)
    (hasym : ∀ x y, lt x y = true → lt y x = false)
    (hcotr : ∀ x y z, lt x z = true → lt x y = true ∨ lt y z = true)
    (a : α) (l : List α) (hl : l.Pairwise (fun x y => lt y x = false)) :
    (insertBy lt a l).Pairwise (fun x y => lt y x = false) := by
  induction l with
  | nil => simp [insertBy]
  | cons b l ih =>
    rw [insertBy]
    rcases List.pairwise_cons.mp hl with ⟨hb, hl2⟩
    by_cases h : lt b a = true
    · rw [if_pos h]
      refine List.pairwise_cons.mpr ⟨?_, ih hl2⟩
      intro x hx
      have hx2 := (insertBy_perm lt a l).mem_iff.mp hx
      rcases List.mem_cons.mp hx2 with rfl | hx3
      · exact hasym b x h
      · exact hb x hx3
    · rw [if_neg h]
      refine List.pairwise_cons.mpr ⟨?_, hl⟩
      intro x hx
      rcases List.mem_cons.mp hx with rfl | hx3
      · simp only [Bool.not_eq_true] at h
        exact h
      · by_contra hxa
        simp only [Bool.not_eq_false] at hxa
        rcases hcotr x b a hxa with hxb | hba
        · rw [hb x hx3] at hxb; cases hxb
        · simp only [Bool.not_eq_true] at h
          rw [h] at hba; cases hba

theorem stableSortBy_pairwise (lt : α → α → Bool)
    (hasym : ∀ x y, lt x y = true → lt y x = false)
    (hcotr : ∀ x y z, lt x z = true → lt x y = true ∨ lt y z = true)
    (l : List α) :
    (stableSortBy lt l).Pairwise (fun x y => lt y x = false) := by
  induction l with
  | nil => simp [stableSortBy]
  | cons a l ih =>
    rw [stableSortBy]
    exact insertBy_pairwise lt hasym hcotr a _ ih

theorem stableSortBy_mem (lt : α → α → Bool) (l : List α) (x : α) :
    x ∈ stableSortBy lt l ↔ x ∈ l :=
  (stableSortBy_perm lt l).mem_iff

/-! ### `greedySearch` invariants -/

theorem entOverlaps_false_iff (c a : Entity) :
    entOverlaps c a = false ↔ EntDisjoint c a := by
  simp only [entOverlaps, EntDisjoint, Bool.and_eq_false_iff, decide_eq_false_iff_not,
    not_lt]
  try omega

theorem entDisjoint_symm {a b : Entity} (h : EntDisjoint a b) : EntDisjoint b a := by
  rcases h with h | h
  · right; exact h
  · left; exact h

theorem greedyAccept_pairwise (sorted : List Entity) :
    ∀ acc : List Entity, acc.Pairwise EntDisjoint →
      (sorted.foldl (fun acc c =>
        if acc.any (fun a => entOverlaps c a) then acc else acc ++ [c]) acc
        ).Pairwise EntDisjoint := by
  induction sorted with
  | nil => intro acc h; exact h
  | cons c rest ih =>
    intro acc hacc
    rw [List.foldl_cons]
    by_cases hov : acc.any (fun a => entOverlaps c a) = true
    · rw [if_pos hov]; exact ih acc hacc
    · rw [if_neg hov]
      refine ih (acc ++ [c]) ?_
      rw [List.pairwise_append]
      refine ⟨hacc, List.pairwise_singleton _ _, ?_⟩
      intro a ha b hb
      rcases List.mem_singleton.mp hb with rfl
      have hfalse : entOverlaps b a = false := by
        by_contra hT
        simp only [Bool.not_eq_false] at hT
        exact hov (List.any_eq_true.mpr ⟨a, ha, hT⟩)
      exact entDisjoint_symm ((entOverlaps_false_iff b a).mp hfalse)

theorem greedyAccepted_pairwise (cs : List Entity) :
    (greedyAccepted cs).Pairwise EntDisjoint :=
  greedyAccept_pairwise _ [] List.Pairwise.nil

theorem greedySearch_nonoverlap (cs : List Entity) :
    (greedySearch cs).Pairwise EntDisjoint := by
  have hperm := stableSortBy_perm (fun a b : Entity => decide (a.start < b.start))
    (greedyAccepted cs)
  exact (hperm.pairwise_iff (fun h => entDisjoint_symm h)).mpr (greedyAccepted_pairwise cs)

theorem foldl_preserve {α ι : Type} (P : α → Prop) (f : List α → ι → List α) :
    ∀ (l : List ι),
      (∀ acc, ∀ i ∈ l, ∀ x, x ∈ f acc i → x ∈ acc ∨ P x) →
      ∀ (init : List α) (x : α), x ∈ l.foldl f init → x ∈ init ∨ P x := by
  intro l
  induction l with
  | nil => intro _ init x hx; exact Or.inl hx
  | cons i l ih =>
    intro hf init x hx
    rw [List.foldl_cons] at hx
    rcases ih (fun acc j hj => hf acc j (List.mem_cons_of_mem i hj)) (f init i) x hx with h | h
    · exact hf init i (List.mem_cons_self i l) x h
    · exact Or.inr h

theorem foldl_state {σ ι : Type} (Inv : σ → Prop) (f : σ → ι → σ)
    (hf : ∀ s i, Inv s → Inv (f s i)) :
    ∀ (l : List ι) (s0 : σ), Inv s0 → Inv (l.foldl f s0) := by
  intro l
  induction l with
  | nil => intro s0 h; exact h
  | cons i l ih =>
    intro s0 h
    rw [List.foldl_cons]
    exact ih (f s0 i) (hf s0 i h)

theorem greedyAccept_subset (sorted : List Entity) :
    ∀ (acc : List Entity) (x : Entity),
      x ∈ sorted.foldl (fun acc c =>
        if acc.any (fun a => entOverlaps c a) then acc else acc ++ [c]) acc →
      x ∈ acc ∨ x ∈ sorted := by
  intro acc x hx
  refine foldl_preserve (fun y => y ∈ sorted)
    (fun acc c => if acc.any (fun a => entOverlaps c a) then acc else acc ++ [c])
    sorted ?_ acc x hx
  intro acc2 c hc y hy
  simp only [] at hy
  split at hy
  · exact Or.inl hy
  · rcases List.mem_append.mp hy with h2 | h2
    · exact Or.inl h2
    · rcases List.mem_singleton.mp h2 with rfl
      exact Or.inr hc

theorem greedySearch_subset (cs : List Entity) (x : Entity)
    (hx : x ∈ greedySearch cs) : x ∈ cs := by
  have h1 : x ∈ greedyAccepted cs :=
    (stableSortBy_mem _ _ x).mp hx
  rcases greedyAccept_subset _ [] x h1 with h | h
  · cases h
  · exact (stableSortBy_mem _ _ x).mp h

/-! ### Candidate-span enumeration (`prepareSpanBatch`) and claim C9 -/

theorem length_flatMap_rangeMap {α : Type} (g : ℕ → ℕ → α) (n w : ℕ) :
    ((List.range n).flatMap (fun i => (List.range w).map (g i))).length = n * w := by
  induction n with
  | zero => simp
  | succ n ih =>
    rw [List.range_succ, List.flatMap_append]
    simp only [List.length_append, ih, List.flatMap_cons, List.flatMap_nil,
      List.append_nil, List.length_map, List.length_range, Nat.succ_mul]

theorem get?_flatMap_rangeMap {α : Type} (g : ℕ → ℕ → α) (n w s : ℕ)
    (hs : s < n * w) :
    ((List.range n).flatMap (fun i => (List.range w).map (g i))).get? s =
      some (g (s / w) (s % w)) := by
  induction n with
  | zero => omega
  | succ n ih =>
    rw [List.range_succ, List.flatMap_append]
    by_cases h : s < n * w
    · rw [List.get?_append (by rw [length_flatMap_rangeMap]; exact h)]
      exact ih h
    · have hsm : (n + 1) * w = n * w + w := by ring
      have hsm2 : Nat.succ n * w = n * w + w := Nat.succ_mul n w
      have hw : 0 < w := by omega
      have h1 : n * w ≤ s := le_of_not_lt h
      have h2 : s - n * w < w := by omega
      rw [List.get?_append_right (by rw [length_flatMap_rangeMap]; exact h1)]
      rw [length_flatMap_rangeMap]
      simp only [List.flatMap_cons, List.flatMap_nil, List.append_nil]
      rw [List.get?_map, List.get?_range h2]
      have hdiv : s / w = n := Nat.div_eq_of_lt_le (by omega) hs
      have hmod : s % w = s - n * w := by
        conv_lhs => rw [show s = (s - n * w) + w * n by rw [Nat.mul_comm w n]; omega]
        rw [Nat.add_mul_mod_self_left]
        exact Nat.mod_eq_of_lt h2
      rw [hdiv, hmod]
      rfl

theorem spanIdxFor_length (n w : ℕ) : (spanIdxFor n w).length = n * w :=
  length_flatMap_rangeMap _ n w

theorem spanMaskFor_length (n w : ℕ) : (spanMaskFor n w).length = n * w :=
  length_flatMap_rangeMap _ n w

theorem spanIdxFor_get (n w s : ℕ) (hs : s < n * w) :
    (spanIdxFor n w).get? s =
      some (if s / w + s % w < n then (s / w, s / w + s % w) else (0, 0)) :=
  get?_flatMap_rangeMap _ n w s hs

theorem spanMaskFor_get (n w s : ℕ) (hs : s < n * w) :
    (spanMaskFor n w).get? s =
      some (if s / w + s % w < n then (1 : ℤ) else 0) :=
  get?_flatMap_rangeMap _ n w s hs

theorem padTo_self (l : List α) (z : α) : padTo l l.length z = l := by
  simp [padTo]

theorem spanListsFor_lengths (n w : ℕ) :
    (spanListsFor n w).2.length = (spanListsFor n w).1.length := by
  rw [spanListsFor]
  split
  · rfl
  · simp only [spanIdxFor_length, spanMaskFor_length]

theorem buildTokenSequence_words (env : TokEnv) (text : Str)
    (entities : List Str) (entTok sepTok : Str) :
    (buildTokenSequence env text entities entTok sepTok).words = splitWords text :=
  rfl

theorem prepareSpanBatch_span_single (env : TokEnv) (text : Str)
    (entities : List Str) (maxWidth : ℕ) (entTok sepTok : Str) :
    (prepareSpanBatch env [text] entities maxWidth entTok sepTok).spanIdx =
      some [(spanListsFor (splitWords text).length maxWidth).1] ∧
    (prepareSpanBatch env [text] entities maxWidth entTok sepTok).spanMask =
      some [(spanListsFor (splitWords text).length maxWidth).2] := by
  rw [prepareSpanBatch]
  simp only [List.map_cons, List.map_nil, List.foldl_cons, List.foldl_nil,
    buildTokenSequence_words, Nat.zero_max]
  constructor
  · rw [padTo_self]
  · rw [← spanListsFor_lengths, padTo_self]

theorem spanListsFor_of_pos (n w : ℕ) (hn : 0 < n) (hw : 0 < w) :
    spanListsFor n w = (spanIdxFor n w, spanMaskFor n w) := by
  rw [spanListsFor]
  rw [if_neg]
  rw [spanIdxFor_length]
  positivity

theorem spanListsFor_of_zero (w : ℕ) :
    spanListsFor 0 w = ([(0, 0)], [0]) := by
  rw [spanListsFor, if_pos]
  simp [spanIdxFor_length]

theorem spanFor_get_iw (n mw i w : ℕ) (hi : i < n) (hw : w < mw) :
    (spanIdxFor n mw).get? (i * mw + w) =
      some (if i + w < n then (i, i + w) else (0, 0)) ∧
    (spanMaskFor n mw).get? (i * mw + w) =
      some (if i + w < n then (1 : ℤ) else 0) := by
  have hmw : 0 < mw := by omega
  have hs : i * mw + w < n * mw := by
    calc i * mw + w < i * mw + mw := by omega
      _ = (i + 1) * mw := by ring
      _ ≤ n * mw := Nat.mul_le_mul_right mw (by omega)
  have hdiv : (i * mw + w) / mw = i := by
    rw [Nat.mul_comm i mw, Nat.mul_add_div hmw]
    simp [Nat.div_eq_of_lt hw]
  have hmod : (i * mw + w) % mw = w := by
    rw [Nat.mul_comm i mw, Nat.mul_add_mod]
    exact Nat.mod_eq_of_lt hw
  constructor
  · rw [spanIdxFor_get n mw _ hs, hdiv, hmod]
  · rw [spanMaskFor_get n mw _ hs, hdiv, hmod]

/-- C9: `prepareSpanBatch` produces, per example before batch-wide padding,
exactly `numWords × maxWidth` candidate spans, enumerating `(i, i+w)` for
every word `i` and every width `w ∈ [0, maxWidth)`, keeping out-of-range
combinations as entries marked invalid in the span mask rather than omitting
them; a text with zero words produces exactly one dummy span marked invalid,
so the span tensors are never empty. -/
theorem claim_C9 (env : TokEnv) (text : Str) (entities : List Str)
    (maxWidth : ℕ) (entTok sepTok : Str) (hmw : 0 < maxWidth) :
    (0 < (splitWords text).length →
      (prepareSpanBatch env [text] entities maxWidth entTok sepTok).spanIdx =
        some [spanIdxFor (splitWords text).length maxWidth] ∧
      (prepareSpanBatch env [text] entities maxWidth entTok sepTok).spanMask =
        some [spanMaskFor (splitWords text).length maxWidth] ∧
      (spanIdxFor (splitWords text).length maxWidth).length =
        (splitWords text).length * maxWidth ∧
      (spanMaskFor (splitWords text).length maxWidth).length =
        (splitWords text).length * maxWidth ∧
      (∀ i w : ℕ, i < (splitWords text).length → w < maxWidth →
        (spanIdxFor (splitWords text).length maxWidth).get? (i * maxWidth + w) =
          some (if i + w < (splitWords text).length then (i, i + w) else (0, 0)) ∧
        (spanMaskFor (splitWords text).length maxWidth).get? (i * maxWidth + w) =
          some (if i + w < (splitWords text).length then 1 else 0))) ∧
    ((splitWords text).length = 0 →
      (prepareSpanBatch env [text] entities maxWidth entTok sepTok).spanIdx =
        some [[(0, 0)]] ∧
      (prepareSpanBatch env [text] entities maxWidth entTok sepTok).spanMask =
        some [[0]]) := by
  obtain ⟨hsi, hsm⟩ := prepareSpanBatch_span_single env text entities maxWidth entTok sepTok
  constructor
  · intro hn
    rw [spanListsFor_of_pos _ _ hn hmw] at hsi hsm
    exact ⟨hsi, hsm, spanIdxFor_length _ _, spanMaskFor_length _ _,
      fun i w hi hw => spanFor_get_iw _ _ i w hi hw⟩
  · intro hn
    rw [hn, spanListsFor_of_zero] at hsi hsm
    exact ⟨hsi, hsm⟩

/-- Witness for C9 at a concrete input: the two-word text `"hi !"` with
`maxWidth = 3`, and the empty text. -/
theorem claim_C9_witness :
    (0 < (splitWords ("hi !".data)).length →
      (prepareSpanBatch ⟨fun _ => [], fun _ => 0, 0⟩ ["hi !".data] ["person".data]
        3 ("<<ENT>>".data) ("<<SEP>>".data)).spanIdx =
        some [spanIdxFor (splitWords ("hi !".data)).length 3] ∧
      (prepareSpanBatch ⟨fun _ => [], fun _ => 0, 0⟩ ["hi !".data] ["person".data]
        3 ("<<ENT>>".data) ("<<SEP>>".data)).spanMask =
        some [spanMaskFor (splitWords ("hi !".data)).length 3] ∧
      (spanIdxFor (splitWords ("hi !".data)).length 3).length =
        (splitWords ("hi !".data)).length * 3 ∧
      (spanMaskFor (splitWords ("hi !".data)).length 3).length =
        (splitWords ("hi !".data)).length * 3 ∧
      (∀ i w : ℕ, i < (splitWords ("hi !".data)).length → w < 3 →
        (spanIdxFor (splitWords ("hi !".data)).length 3).get? (i * 3 + w) =
          some (if i + w < (splitWords ("hi !".data)).length then (i, i + w) else (0, 0)) ∧
        (spanMaskFor (splitWords ("hi !".data)).length 3).get? (i * 3 + w) =
          some (if i + w < (splitWords ("hi !".data)).length then 1 else 0))) ∧
    ((splitWords ("hi !".data)).length = 0 →
      (prepareSpanBatch ⟨fun _ => [], fun _ => 0, 0⟩ ["hi !".data] ["person".data]
        3 ("<<ENT>>".data) ("<<SEP>>".data)).spanIdx = some [[(0, 0)]] ∧
      (prepareSpanBatch ⟨fun _ => [], fun _ => 0, 0⟩ ["hi !".data] ["person".data]
        3 ("<<ENT>>".data) ("<<SEP>>".data)).spanMask = some [[0]]) :=
  claim_C9 ⟨fun _ => [], fun _ => 0, 0⟩ ("hi !".data) ["person".data] 3
    ("<<ENT>>".data) ("<<SEP>>".data) (by decide)

/-- A nonzero span-mask entry designates an in-range span pair: the
corresponding `span_idx` entry is `(i, j)` with `i ≤ j < numWords`. -/
theorem spanMask_nonzero {n w s : ℕ} {m : ℤ}
    (hm : (spanMaskFor n w).get? s = some m) (hm0 : m ≠ 0) :
    ∃ i j : ℕ, (spanIdxFor n w).get? s = some (i, j) ∧ i ≤ j ∧ j < n := by
  have hs : s < n * w := by
    by_contra hge
    rw [List.get?_eq_none.mpr (by rw [spanMaskFor_length]; omega)] at hm
    cases hm
  rw [spanMaskFor_get n w s hs] at hm
  by_cases hin : s / w + s % w < n
  · refine ⟨s / w, s / w + s % w, ?_, by omega, hin⟩
    rw [spanIdxFor_get n w s hs, if_pos hin]
  · rw [if_neg hin] at hm
    injection hm with hm
    exact absurd hm.symm hm0

/-! ### Decoder span validity (claim C3, non-chunked path) -/

theorem nthD_singleton (a : α) (d : α) : nthD [a] 0 d = a := rfl

theorem splitWords_offsets {text : Str} {i j : ℕ} {ti tj : Str × ℕ × ℕ}
    (hi : (splitWords text).get? i = some ti)
    (hj : (splitWords text).get? j = some tj) (hij : i ≤ j) :
    ti.2.1 < tj.2.2 ∧ tj.2.2 ≤ text.length := by
  have hmi := wordTriplesOK_mem (splitWords_ok text) ti (List.get?_mem hi)
  have hmj := wordTriplesOK_mem (splitWords_ok text) tj (List.get?_mem hj)
  rcases eq_or_lt_of_le hij with rfl | hlt
  · rw [hi] at hj
    injection hj with hj
    subst hj
    exact ⟨hmi.2.1, hmi.2.2.1⟩
  · obtain ⟨hil, hgi⟩ := List.get?_eq_some.mp hi
    obtain ⟨hjl, hgj⟩ := List.get?_eq_some.mp hj
    have hp := List.pairwise_iff_get.mp
      (wordTriplesOK_pairwise (splitWords_ok text)) ⟨i, hil⟩ ⟨j, hjl⟩ hlt
    rw [hgi, hgj] at hp
    constructor
    · calc ti.2.1 < ti.2.2 := hmi.2.1
        _ ≤ tj.2.1 := hp
        _ < tj.2.2 := hmj.2.1
    · exact hmj.2.2.1

theorem get?_map_proj {l : List (Str × ℕ × ℕ)} {i : ℕ} {v : ℕ}
    (h : (l.map (fun t => t.2.1)).get? i = some v) :
    ∃ t, l.get? i = some t ∧ v = t.2.1 := by
  rw [List.get?_map] at h
  cases hg : l.get? i with
  | none => rw [hg] at h; cases h
  | some t =>
    rw [hg] at h
    injection h with h
    exact ⟨t, rfl, h.symm⟩

theorem get?_map_proj2 {l : List (Str × ℕ × ℕ)} {i : ℕ} {v : ℕ}
    (h : (l.map (fun t => t.2.2)).get? i = some v) :
    ∃ t, l.get? i = some t ∧ v = t.2.2 := by
  rw [List.get?_map] at h
  cases hg : l.get? i with
  | none => rw [hg] at h; cases h
  | some t =>
    rw [hg] at h
    injection h with h
    exact ⟨t, rfl, h.symm⟩

theorem mem_pushOpt {x : Entity} {cands : List Entity} {o : Option Entity} :
    x ∈ pushOpt cands o ↔ x ∈ cands ∨ o = some x := by
  cases o with
  | none => simp [pushOpt]
  | some c => simp [pushOpt, eq_comm]

/-- Every candidate `spanCandidateAt` emits over the word data and span lists
of the input text is a valid span of that text. -/
theorem spanCandidateAt_valid {scores : List ℚ} {ns ne : ℕ} {labels : List Str}
    {text : Str} {mw : ℕ} {th : ℚ} {b s : ℕ} {y : Entity}
    (h : spanCandidateAt scores ns ne labels text
      ((splitWords text).map (fun t => t.2.1))
      ((splitWords text).map (fun t => t.2.2))
      (spanListsFor (splitWords text).length mw).1
      (spanListsFor (splitWords text).length mw).2 th b s = some y) :
    SpanValid text y := by
  set n := (splitWords text).length with hn
  rw [spanCandidateAt] at h
  cases hm : (spanListsFor n mw).2.get? s with
  | none => rw [hm] at h; cases h
  | some m =>
    rw [hm] at h
    simp only [] at h
    by_cases hm0 : m = 0
    · rw [if_pos hm0] at h; cases h
    · rw [if_neg hm0] at h
      have hnd : spanListsFor n mw = (spanIdxFor n mw, spanMaskFor n mw) := by
        rw [spanListsFor]
        split
        · exfalso
          rename_i hlen
          have hdm : (spanListsFor n mw).2 = [0] := by
            rw [spanListsFor, if_pos hlen]
          rw [hdm] at hm
          cases s with
          | zero =>
            rw [List.get?_cons_zero] at hm
            injection hm with hm
            exact hm0 hm.symm
          | succ k =>
            rw [List.get?_cons_succ, List.get?_nil] at hm
            cases hm
        · rfl
      have hm2 : (spanMaskFor n mw).get? s = some m := by
        rw [← show (spanListsFor n mw).2 = spanMaskFor n mw by rw [hnd]]
        exact hm
      obtain ⟨i, j, hij, hile, hjn⟩ := spanMask_nonzero hm2 hm0
      have hsi2 : (spanListsFor n mw).1.get? s = some (i, j) := by
        rw [show (spanListsFor n mw).1 = spanIdxFor n mw by rw [hnd]]
        exact hij
      rw [hsi2] at h
      simp only [Option.getD_some] at h
      cases hbest : bestLabel scores ne (b * (ns * ne) + s * ne) with
      | none => rw [hbest] at h; cases h
      | some p =>
        rw [hbest] at h
        obtain ⟨bs, be⟩ := p
        simp only [] at h
        by_cases hth : th < bs
        · rw [if_pos hth] at h
          cases hcs : ((splitWords text).map (fun t => t.2.1)).get? i with
          | none => rw [hcs] at h; cases h
          | some cs =>
            cases hce : ((splitWords text).map (fun t => t.2.2)).get? j with
            | none => rw [hcs, hce] at h; cases h
            | some ce =>
              rw [hcs, hce] at h
              injection h with h
              subst h
              obtain ⟨ti, hti, hcsv⟩ := get?_map_proj hcs
              obtain ⟨tj, htj, hcev⟩ := get?_map_proj2 hce
              obtain ⟨hlt2, hle2⟩ := splitWords_offsets hti htj hile
              exact ⟨cs, ce, rfl, rfl, by omega, by omega, rfl⟩
        · rw [if_neg hth] at h; cases h

theorem runSpanInference_valid (env : GlinerEnv) (text : Str)
    (labels : List Str) (th : ℚ) :
    ∀ e ∈ runSpanInference env text labels th, SpanValid text e := by
  intro e he
  simp only [runSpanInference] at he
  obtain ⟨hsi, hsm⟩ :=
    prepareSpanBatch_span_single env.tok text labels env.maxWidth env.entToken env.sepToken
  rw [hsi, hsm] at he
  have hws : (prepareSpanBatch env.tok [text] labels env.maxWidth env.entToken
      env.sepToken).batchWordsStartIdx = [(splitWords text).map (fun t => t.2.1)] := rfl
  have hwe : (prepareSpanBatch env.tok [text] labels env.maxWidth env.entToken
      env.sepToken).batchWordsEndIdx = [(splitWords text).map (fun t => t.2.2)] := rfl
  rw [hws, hwe] at he
  rw [Option.getD_some, Option.getD_some] at he
  simp only [decodeSpanLevel, show List.range 1 = [0] from rfl, List.map_cons,
    List.map_nil, nthD_singleton] at he
  have he2 := greedySearch_subset _ _ he
  have hstep := foldl_preserve (SpanValid text) _
    (List.range ((nthD [(spanListsFor (splitWords text).length env.maxWidth).1] 0 []).length))
    ?_ [] e he2
  · rcases hstep with h | h
    · cases h
    · exact h
  · intro cands s hs x hx
    simp only [nthD_singleton] at hx
    rcases mem_pushOpt.mp hx with h | h
    · exact Or.inl h
    · exact Or.inr (spanCandidateAt_valid h)

/-- Every candidate `tokenCandidateAt` emits over the word data of the input
text is a valid span of that text. -/
theorem tokenCandidateAt_valid {labels : List Str} {text : Str}
    {insideMap : List ((ℕ × ℕ) × ℚ)} {th : ℚ} {s en : ℕ × ℕ × ℚ} {y : Entity}
    (h : tokenCandidateAt labels text
      ((splitWords text).map (fun t => t.2.1))
      ((splitWords text).map (fun t => t.2.2)) insideMap th s en = some y) :
    SpanValid text y := by
  rw [tokenCandidateAt] at h
  by_cases h1 : en.2.1 ≠ s.2.1
  · rw [if_pos h1] at h; cases h
  · rw [if_neg h1] at h
    by_cases h2 : en.1 < s.1
    · rw [if_pos h2] at h; cases h
    · rw [if_neg h2] at h
      simp only [] at h
      split at h
      · cases hcs : ((splitWords text).map (fun t => t.2.1)).get? s.1 with
        | none => rw [hcs] at h; cases h
        | some cs =>
          cases hce : ((splitWords text).map (fun t => t.2.2)).get? en.1 with
          | none => rw [hcs, hce] at h; cases h
          | some ce =>
            rw [hcs, hce] at h
            injection h with h
            subst h
            obtain ⟨ti, hti, hcsv⟩ := get?_map_proj hcs
            obtain ⟨tj, htj, hcev⟩ := get?_map_proj2 hce
            obtain ⟨hlt2, hle2⟩ := splitWords_offsets hti htj (by omega)
            exact ⟨cs, ce, rfl, rfl, by omega, by omega, rfl⟩
      · cases h

theorem runTokenInference_valid (env : GlinerEnv) (text : Str)
    (labels : List Str) (th : ℚ) :
    ∀ e ∈ runTokenInference env text labels th, SpanValid text e := by
  intro e he
  simp only [runTokenInference] at he
  have hws : (prepareBatch env.tok [text] labels env.entToken
      env.sepToken).batchWordsStartIdx = [(splitWords text).map (fun t => t.2.1)] := rfl
  have hwe : (prepareBatch env.tok [text] labels env.entToken
      env.sepToken).batchWordsEndIdx = [(splitWords text).map (fun t => t.2.2)] := rfl
  rw [hws, hwe] at he
  simp only [decodeTokenLevel, show List.range 1 = [0] from rfl, List.map_cons,
    List.map_nil, nthD_singleton] at he
  have he2 := greedySearch_subset _ _ he
  have hstep := foldl_preserve (SpanValid text) _ _ ?_ [] e he2
  · rcases hstep with h | h
    · cases h
    · exact h
  · intro cands s hs x hx
    have hinner := foldl_preserve (SpanValid text) _ _ ?_ cands x hx
    · exact hinner
    · intro cands2 en hen x2 hx2
      rcases mem_pushOpt.mp hx2 with h | h
      · exact Or.inl h
      · exact Or.inr (tokenCandidateAt_valid h)

theorem sortByStart_sorted (l : List Entity) :
    (stableSortBy (fun a b => decide (a.start < b.start)) l).Pairwise
      (fun a b => a.start ≤ b.start) := by
  have := stableSortBy_pairwise (fun a b : Entity => decide (a.start < b.start))
    (by intro x y h; simp only [decide_eq_true_eq] at h; simp only [decide_eq_false_iff_not, not_lt]; omega)
    (by
      intro x y z h
      simp only [decide_eq_true_eq] at h ⊢
      omega)
    l
  refine this.imp ?_
  intro a b h
  simp only [decide_eq_false_iff_not, not_lt] at h
  exact h

theorem greedySearch_sorted (cs : List Entity) :
    (greedySearch cs).Pairwise (fun a b => a.start ≤ b.start) :=
  sortByStart_sorted (greedyAccepted cs)

/-! ### `detectPII`-level results (claims C2, C3, C4) -/

theorem runSpanInference_eq_greedy (env : GlinerEnv) (text : Str)
    (labels : List Str) (th : ℚ) :
    ∃ cs, runSpanInference env text labels th = greedySearch cs := by
  simp only [runSpanInference, decodeSpanLevel, show List.range 1 = [0] from rfl,
    List.map_cons, List.map_nil, nthD_singleton]
  exact ⟨_, rfl⟩

theorem runTokenInference_eq_greedy (env : GlinerEnv) (text : Str)
    (labels : List Str) (th : ℚ) :
    ∃ cs, runTokenInference env text labels th = greedySearch cs := by
  simp only [runTokenInference, decodeTokenLevel, show List.range 1 = [0] from rfl,
    List.map_cons, List.map_nil, nthD_singleton]
  exact ⟨_, rfl⟩

theorem runInference_eq_greedy (env : GlinerEnv) (text : Str)
    (labels : List Str) (th : ℚ) :
    ∃ cs, runInference env text labels th = greedySearch cs := by
  rw [runInference]
  split
  · exact runSpanInference_eq_greedy env text labels th
  · exact runTokenInference_eq_greedy env text labels th

theorem runInference_valid (env : GlinerEnv) (text : Str)
    (labels : List Str) (th : ℚ) :
    ∀ e ∈ runInference env text labels th, SpanValid text e := by
  rw [runInference]
  split
  · exact runSpanInference_valid env text labels th
  · exact runTokenInference_valid env text labels th

theorem detectPII_nonchunked (env : GlinerEnv) (text : Str) (labels : List Str)
    (th : ℚ)
    (h : (jsSplitWs text).length ≤ (if env.isSpanMode then 200 else 500)) :
    detectPII env text labels th = runInference env text labels th := by
  simp only [detectPII]
  exact if_neg (by omega)

theorem detectPIIChunked_eq_sort (env : GlinerEnv) (text : Str)
    (labels : List Str) (th : ℚ) (chunkSize : ℕ) :
    detectPIIChunked env text labels th chunkSize =
      stableSortBy (fun a b => decide (a.start < b.start))
        (detectPIIChunkedGo env text labels th chunkSize (jsSplitWs text)
          0 ((jsSplitWs text).length + 1) ([], [])) := rfl

theorem detectPII_chunked_of_long (env : GlinerEnv) (text : Str)
    (labels : List Str) (th : ℚ)
    (h : (if env.isSpanMode then 200 else 500) < (jsSplitWs text).length) :
    detectPII env text labels th =
      detectPIIChunked env text labels th (if env.isSpanMode then 200 else 500) := by
  simp only [detectPII]
  exact if_pos (by omega)

/-- C2 (amended): the entity list returned by one `detectPII` call is sorted
ascending by start offset on both the direct and the chunked path; on the
direct path (word count within the mode ceiling) it is additionally pairwise
non-overlapping under half-open interval semantics.  The chunked path can
return overlapping entities assembled from different windows (see the
counterexample), so non-overlap is restricted to the direct path. -/
theorem claim_C2_amended (env : GlinerEnv) (text : Str) (labels : List Str)
    (th : ℚ) :
    (detectPII env text labels th).Pairwise (fun a b => a.start ≤ b.start) ∧
    ((jsSplitWs text).length ≤ (if env.isSpanMode then 200 else 500) →
      (detectPII env text labels th).Pairwise EntDisjoint) := by
  constructor
  · by_cases h : (if env.isSpanMode then 200 else 500) < (jsSplitWs text).length
    · rw [detectPII_chunked_of_long env text labels th h, detectPIIChunked_eq_sort]
      exact sortByStart_sorted _
    · rw [detectPII_nonchunked env text labels th (by omega)]
      obtain ⟨cs, hcs⟩ := runInference_eq_greedy env text labels th
      rw [hcs]
      exact greedySearch_sorted cs
  · intro h
    rw [detectPII_nonchunked env text labels th h]
    obtain ⟨cs, hcs⟩ := runInference_eq_greedy env text labels th
    rw [hcs]
    exact greedySearch_nonoverlap cs

/-- Witness for C2 at a concrete input (one word, token mode, 0.3 threshold:
one entity detected). -/
theorem claim_C2_amended_witness :
    (detectPII envC4 ("hi".data) ["person".data] (3/10)).Pairwise
      (fun a b => a.start ≤ b.start) ∧
    (detectPII envC4 ("hi".data) ["person".data] (3/10)).Pairwise EntDisjoint :=
  ⟨(claim_C2_amended envC4 ("hi".data) ["person".data] (3/10)).1,
    (claim_C2_amended envC4 ("hi".data) ["person".data] (3/10)).2 (by decide)⟩

/-- Counterexample to C2 as stated: on the chunked path, two windows of
`textAllA` detect the same character range under different labels; both
survive the `(start,end,label)` dedup, so the merged result contains two
overlapping entities. -/
theorem claim_C2_counterexample :
    ¬ (detectPII envC2 textAllA ["a".data, "b".data] DEFAULT_THRESHOLD).Pairwise
      EntDisjoint := by
  decide

/-- C3 (amended): every entity returned by a non-chunked `detectPII` call
(word count within the mode ceiling) satisfies
`0 ≤ start < end ≤ length(text)` and `text.slice(start, end) = entity.text`.
On the chunked path the slice property can fail, because window texts are
re-joined with single spaces and located with `indexOf` (see the
counterexample). -/
theorem claim_C3_amended (env : GlinerEnv) (text : Str) (labels : List Str)
    (th : ℚ)
    (h : (jsSplitWs text).length ≤ (if env.isSpanMode then 200 else 500)) :
    ∀ e ∈ detectPII env text labels th, SpanValid text e := by
  rw [detectPII_nonchunked env text labels th h]
  exact runInference_valid env text labels th

/-- Witness for C3 at a concrete input: the single entity detected on
`"hi"` in token mode at threshold 0.3 is a valid span. -/
theorem claim_C3_amended_witness :
    SpanValid ("hi".data)
      ⟨"hi".data, "person".data, 0, 2, 35/100⟩ :=
  claim_C3_amended envC4 ("hi".data) ["person".data] (3/10) (by decide)
    ⟨"hi".data, "person".data, 0, 2, 35/100⟩ (by decide)

/-- Counterexample to C3 as stated: on the chunked path of `textC3` (which
has a double space the window join normalizes away), the detected entity has
`start = 2, end = 3` but `textC3.slice(2, 3)` is a space, not the entity
text. -/
theorem claim_C3_counterexample :
    ¬ (∀ e ∈ detectPII envC3 textC3 ["a".data] DEFAULT_THRESHOLD,
        SpanValid textC3 e) := by
  intro h
  have hmem : (⟨['a'], "a".data, 2, 3, 9/10⟩ : Entity) ∈
      detectPII envC3 textC3 ["a".data] DEFAULT_THRESHOLD := by decide
  obtain ⟨cs, ce, h1, h2, h3, h4, h5⟩ := h _ hmem
  have h1b : (2 : ℤ) = (cs : ℤ) := h1
  have h2b : (3 : ℤ) = (ce : ℤ) := h2
  have hcs : cs = 2 := by exact_mod_cast h1b.symm
  have hce : ce = 3 := by exact_mod_cast h2b.symm
  subst hcs
  subst hce
  exact absurd h5 (by decide)

/-- C4 (amended): the detection threshold is caller-overridable, but when
the caller omits it the threshold applied during decoding is
`DEFAULT_THRESHOLD = 0.4` in both modes; the decoder-level defaults (0.3
token-pair, 0.4 span) are always overridden by `detectPII`'s own default. -/
theorem claim_C4_amended (env : GlinerEnv) (text : Str) (labels : List Str) :
    detectPIIDefault env text labels = detectPII env text labels (2/5) ∧
    (env.isSpanMode = false → (jsSplitWs text).length ≤ 500 →
      detectPIIDefault env text labels = runTokenInference env text labels (2/5)) ∧
    (env.isSpanMode = true → (jsSplitWs text).length ≤ 200 →
      detectPIIDefault env text labels = runSpanInference env text labels (2/5)) := by
  have hdt : DEFAULT_THRESHOLD = 2/5 := by norm_num [DEFAULT_THRESHOLD]
  refine ⟨by rw [detectPIIDefault, hdt], ?_, ?_⟩
  · intro hmode hlen
    rw [detectPIIDefault, hdt,
      detectPII_nonchunked env text labels _ (by rw [hmode]; simpa using hlen),
      runInference, hmode]
    simp
  · intro hmode hlen
    rw [detectPIIDefault, hdt,
      detectPII_nonchunked env text labels _ (by rw [hmode]; simpa using hlen),
      runInference, hmode]
    simp

/-- Witness for C4 at a concrete input. -/
theorem claim_C4_amended_witness :
    detectPIIDefault envC4 ("hi".data) ["person".data] =
      detectPII envC4 ("hi".data) ["person".data] (2/5) ∧
    detectPIIDefault envC4 ("hi".data) ["person".data] =
      runTokenInference envC4 ("hi".data) ["person".data] (2/5) :=
  ⟨(claim_C4_amended envC4 ("hi".data) ["person".data]).1,
    (claim_C4_amended envC4 ("hi".data) ["person".data]).2.1 (by decide) (by decide)⟩

/-! ### The chunked merge (claim C6) -/

theorem chunkDedupStep_inv (entities : List Entity) (d : ℤ) :
    ∀ st, KeyInv st → KeyInv (chunkDedupStep entities d st) := by
  induction entities with
  | nil => intro st h; exact h
  | cons e rest ih =>
    intro st h
    rw [chunkDedupStep, List.foldl_cons]
    show KeyInv (chunkDedupStep rest d _)
    apply ih
    simp only []
    split
    · exact h
    · rename_i hc
      obtain ⟨h1, h2⟩ := h
      constructor
      · intro e2 he2
        rcases List.mem_append.mp he2 with hm | hm
        · have := h1 e2 hm
          simp only [List.contains_cons, this, Bool.or_true]
        · rcases List.mem_singleton.mp hm with rfl
          simp [List.contains_cons]
      · rw [List.pairwise_append]
        refine ⟨h2, List.pairwise_singleton _ _, ?_⟩
        intro a ha b hb
        rcases List.mem_singleton.mp hb with rfl
        intro hkey
        rw [← hkey] at hc
        exact hc (h1 a ha)

theorem chunkDedupStep_mem (d : ℤ) :
    ∀ (entities : List Entity) (st : List Entity × List Str) (x : Entity),
      x ∈ (chunkDedupStep entities d st).1 →
      x ∈ st.1 ∨ ∃ f ∈ entities, x = shiftEnt f d := by
  intro entities
  induction entities with
  | nil => intro st x hx; exact Or.inl hx
  | cons e rest ih =>
    intro st x hx
    rw [chunkDedupStep, List.foldl_cons] at hx
    have hx2 : x ∈ (chunkDedupStep rest d _).1 := hx
    rcases ih _ x hx2 with h | ⟨f, hf, rfl⟩
    · by_cases hc : st.2.contains (entityKey (shiftEnt e d)) = true
      · rw [if_pos hc] at h
        exact Or.inl h
      · simp only [hc, Bool.false_eq_true, if_false] at h
        rcases List.mem_append.mp h with hm | hm
        · exact Or.inl hm
        · rcases List.mem_singleton.mp hm with rfl
          exact Or.inr ⟨e, List.mem_cons_self e rest, rfl⟩
    · exact Or.inr ⟨f, List.mem_cons_of_mem e hf, rfl⟩

theorem chunkedGo_pairwiseKey (env : GlinerEnv) (text : Str)
    (labels : List Str) (th : ℚ) (chunkSize : ℕ) (words : List Str) :
    ∀ (fuel i : ℕ) (st : List Entity × List Str), KeyInv st →
      (detectPIIChunkedGo env text labels th chunkSize words i fuel st).Pairwise
        (fun a b => entityKey a ≠ entityKey b) := by
  intro fuel
  induction fuel with
  | zero => intro i st h; exact h.2
  | succ fuel ih =>
    intro i st h
    rw [detectPIIChunkedGo]
    split
    · exact ih _ _ (chunkDedupStep_inv _ _ _ h)
    · exact h.2

theorem chunkedGo_mem (env : GlinerEnv) (text : Str) (labels : List Str)
    (th : ℚ) (chunkSize : ℕ) (words : List Str) :
    ∀ (fuel i : ℕ) (st : List Entity × List Str) (e : Entity),
      e ∈ detectPIIChunkedGo env text labels th chunkSize words i fuel st →
      e ∈ st.1 ∨ ∃ k : ℕ, i + k * (chunkSize - 50) < words.length ∧
        ∃ f ∈ runInference env
            (chunkTextAt words chunkSize (i + k * (chunkSize - 50))) labels th,
          e = shiftEnt f (chunkShiftAt text words chunkSize
            (i + k * (chunkSize - 50))) := by
  intro fuel
  induction fuel with
  | zero => intro i st e he; exact Or.inl he
  | succ fuel ih =>
    intro i st e he
    rw [detectPIIChunkedGo] at he
    by_cases hi : i < words.length
    · rw [if_pos hi] at he
      rcases ih _ _ e he with h | ⟨k, hk, f, hf, rfl⟩
      · rcases chunkDedupStep_mem _ _ _ e h with h2 | ⟨f, hf, rfl⟩
        · exact Or.inl h2
        · refine Or.inr ⟨0, ?_, f, ?_, ?_⟩
          · simpa using hi
          · simpa using hf
          · simp
      · refine Or.inr ⟨k + 1, ?_, f, ?_, ?_⟩
        · have : i + (chunkSize - 50) + k * (chunkSize - 50) =
              i + (k + 1) * (chunkSize - 50) := by ring
          omega
        · have : i + (chunkSize - 50) + k * (chunkSize - 50) =
              i + (k + 1) * (chunkSize - 50) := by ring
          rw [← this]
          exact hf
        · have : i + (chunkSize - 50) + k * (chunkSize - 50) =
              i + (k + 1) * (chunkSize - 50) := by ring
          rw [← this]
    · rw [if_neg hi] at he
      exact Or.inl he

/-- C6 (amended): when the word count exceeds the mode ceiling, `detectPII`
splits the text into word windows advancing by `chunkSize − 50` (a fixed
50-word overlap), runs inference per window on the window words re-joined
with single spaces, shifts each window's entity offsets by the offset located
with `text.indexOf(chunkWords[0], i > 0 ? text.indexOf(words[i-1]) : 0)` —
which equals the window's character start offset only when words are unique
and single-space separated — deduplicates by exact `(start, end, label)` key,
and returns the union sorted ascending by start; the merged result never
contains two entities with identical `(start, end, label)`. -/
theorem claim_C6_amended (env : GlinerEnv) (text : Str) (labels : List Str)
    (th : ℚ)
    (h : (if env.isSpanMode then 200 else 500) < (jsSplitWs text).length) :
    detectPII env text labels th =
      detectPIIChunked env text labels th (if env.isSpanMode then 200 else 500) ∧
    (detectPII env text labels th).Pairwise (fun a b => a.start ≤ b.start) ∧
    (detectPII env text labels th).Pairwise
      (fun a b => ¬ (a.start = b.start ∧ a.«end» = b.«end» ∧ a.label = b.label)) ∧
    ∀ e ∈ detectPII env text labels th, ∃ k : ℕ,
      k * ((if env.isSpanMode then 200 else 500) - 50) < (jsSplitWs text).length ∧
      ∃ f ∈ runInference env
          (chunkTextAt (jsSplitWs text) (if env.isSpanMode then 200 else 500)
            (k * ((if env.isSpanMode then 200 else 500) - 50))) labels th,
        e = shiftEnt f (chunkShiftAt text (jsSplitWs text)
          (if env.isSpanMode then 200 else 500)
          (k * ((if env.isSpanMode then 200 else 500) - 50))) := by
  have heq := detectPII_chunked_of_long env text labels th h
  refine ⟨heq, ?_, ?_, ?_⟩
  · exact (claim_C2_amended env text labels th).1
  · rw [heq, detectPIIChunked_eq_sort]
    have hkey := chunkedGo_pairwiseKey env text labels th
      (if env.isSpanMode then 200 else 500) (jsSplitWs text)
      ((jsSplitWs text).length + 1) 0 ([], [])
      ⟨(by intro e he; cases he), List.Pairwise.nil⟩
    have hperm := stableSortBy_perm (fun a b : Entity => decide (a.start < b.start))
      (detectPIIChunkedGo env text labels th
        (if env.isSpanMode then 200 else 500) (jsSplitWs text) 0
        ((jsSplitWs text).length + 1) ([], []))
    have h2 := (hperm.pairwise_iff
      (fun {a b} (hne : entityKey a ≠ entityKey b) => hne.symm)).mpr hkey
    refine h2.imp ?_
    intro a b hne ⟨e1, e2, e3⟩
    exact hne (by rw [entityKey, entityKey, e1, e2, e3])
  · intro e he
    rw [heq, detectPIIChunked_eq_sort, stableSortBy_mem] at he
    rcases chunkedGo_mem env text labels th _ (jsSplitWs text) _ 0 ([], []) e he
      with h2 | ⟨k, hk, f, hf, hshift⟩
    · cases h2
    · exact ⟨k, by simpa using hk, f, by simpa using hf, by simpa using hshift⟩

/-- Witness for C6 at a concrete input (201 one-character words, span
mode). -/
theorem claim_C6_amended_witness :
    detectPII envC6 textAllA ["a".data] DEFAULT_THRESHOLD =
      detectPIIChunked envC6 textAllA ["a".data] DEFAULT_THRESHOLD 200 ∧
    (detectPII envC6 textAllA ["a".data] DEFAULT_THRESHOLD).Pairwise
      (fun a b => a.start ≤ b.start) ∧
    (detectPII envC6 textAllA ["a".data] DEFAULT_THRESHOLD).Pairwise
      (fun a b => ¬ (a.start = b.start ∧ a.«end» = b.«end» ∧ a.label = b.label)) := by
  have h := claim_C6_amended envC6 textAllA ["a".data] DEFAULT_THRESHOLD (by decide)
  exact ⟨h.1, h.2.1, h.2.2.1⟩

/-- Counterexample to C6 as stated: on `textAllA`, the code's computed shift
for the second window is 0 (`indexOf` finds the repeated first word early),
not the window's character start offset 300 within the original text, so the
merged result differs from the claim's description (`claimC6Merge`). -/
theorem claim_C6_counterexample :
    detectPII envC6 textAllA ["a".data] DEFAULT_THRESHOLD =
      [⟨['a'], "a".data, 20, 21, 9/10⟩] ∧
    claimC6Merge envC6 textAllA ["a".data] DEFAULT_THRESHOLD 200 =
      [⟨['a'], "a".data, 320, 321, 9/10⟩] ∧
    detectPII envC6 textAllA ["a".data] DEFAULT_THRESHOLD ≠
      claimC6Merge envC6 textAllA ["a".data] DEFAULT_THRESHOLD 200 := by
  have h1 : detectPII envC6 textAllA ["a".data] DEFAULT_THRESHOLD =
      [⟨['a'], "a".data, 20, 21, 9/10⟩] := by decide
  have h2 : claimC6Merge envC6 textAllA ["a".data] DEFAULT_THRESHOLD 200 =
      [⟨['a'], "a".data, 320, 321, 9/10⟩] := by decide
  refine ⟨h1, h2, ?_⟩
  rw [h1, h2]
  decide

/-- Counterexample to C4 as stated: with the token-pair model of `envC4`
and the threshold omitted by the caller, the decode rejects the 0.35-scored
span — the applied threshold is 0.4, not the claimed 0.3 (decoding with 0.3
returns the span). -/
theorem claim_C4_counterexample :
    detectPIIDefault envC4 ("hi".data) ["person".data] ≠
      runTokenInference envC4 ("hi".data) ["person".data] (3/10) ∧
    detectPIIDefault envC4 ("hi".data) ["person".data] =
      runTokenInference envC4 ("hi".data) ["person".data] (2/5) := by
  constructor
  · decide
  · decide

/-! ### Tokenizer totality (claim C7) and module error behaviour (claim C8) -/

theorem foldl_state_of_mem {σ ι : Type} (Inv : σ → Prop) (f : σ → ι → σ) :
    ∀ (l : List ι), (∀ s, ∀ i ∈ l, Inv s → Inv (f s i)) →
      ∀ s0, Inv s0 → Inv (l.foldl f s0) := by
  intro l
  induction l with
  | nil => intro _ s0 h; exact h
  | cons i l ih =>
    intro hf s0 h0
    exact ih (fun s j hj hs => hf s j (List.mem_cons_of_mem _ hj) hs) (f s0 i)
      (hf s0 i (List.mem_cons_self _ _) h0)

theorem vitInv_set {n : ℕ} {best : List VitEntry} (h : VitInv n best)
    (k : ℕ) (e : VitEntry) (he : 1 ≤ k → e.2.1 < k) :
    VitInv n (best.set k e) := by
  refine ⟨by rw [List.length_set]; exact h.1, ?_⟩
  intro p hp e' hg
  rw [List.get?_set] at hg
  by_cases hkp : k = p
  · rw [if_pos hkp] at hg
    subst hkp
    cases hq : best.get? k with
    | none => rw [hq] at hg; exact absurd hg (by simp)
    | some old =>
      rw [hq] at hg
      have hee : e = e' := by simpa using hg
      rw [← hee]
      exact he hp
  · rw [if_neg hkp] at hg
    exact h.2 p hp e' hg

theorem vitInv_prev_lt {n : ℕ} {best : List VitEntry} (h : VitInv n best)
    {p : ℕ} (unk : ℤ) (hp : 1 ≤ p) (hpn : p ≤ n) :
    (bestGetE best p unk).2.1 < p := by
  have hlt : p < best.length := by rw [h.1]; omega
  have hg := List.get?_eq_get hlt
  have hinv := h.2 p hp _ hg
  unfold bestGetE nthD
  rw [hg]
  exact hinv

theorem viterbiPieceStep_inv (st : UnigramState) (text : Str) (n : ℕ)
    {best : List VitEntry} (i : ℕ) (h : VitInv n best) :
    VitInv n (viterbiPieceStep st text n best i) := by
  simp only [viterbiPieceStep]
  refine foldl_state_of_mem (VitInv n) _ _ ?_ best h
  intro s len hlen hs
  have h1 : 1 ≤ len := (List.mem_range'_1.mp hlen).1
  split
  · exact hs
  · split
    · exact hs
    · split
      · exact vitInv_set hs (i + len) _ (fun _ => by show i < i + len; omega)
      · exact hs

theorem viterbiFallbackStep_inv (st : UnigramState) (text : Str)
    {best : List VitEntry} (i : ℕ) (h : VitInv n best) :
    VitInv n (viterbiFallbackStep st text best i) := by
  simp only [viterbiFallbackStep]
  split
  · split
    · exact h
    · split
      · split
        · exact h
        · split
          · exact vitInv_set h (i + 1) _ (fun _ => Nat.lt_succ_self i)
          · exact h
      · exact vitInv_set h (i + 1) _ (fun _ => Nat.lt_succ_self i)
  · exact h

theorem viterbiStep_inv (st : UnigramState) (text : Str) (n : ℕ)
    {best : List VitEntry} (i : ℕ) (h : VitInv n best) :
    VitInv n (viterbiStep st text n best i) := by
  simp only [viterbiStep]
  split
  · exact h
  · exact viterbiFallbackStep_inv st text i (viterbiPieceStep_inv st text n i h)

theorem viterbiForward_inv (st : UnigramState) (text : Str) (n : ℕ) :
    VitInv n (viterbiForward st text n) := by
  unfold viterbiForward
  refine foldl_state (VitInv n) _ (fun s i hs => viterbiStep_inv st text n i hs)
    (List.range n) _ ?_
  refine ⟨by simp, ?_⟩
  intro p hp e hg
  cases p with
  | zero => omega
  | succ q =>
    simp only [List.get?_cons_succ] at hg
    have he := List.eq_of_mem_replicate (List.get?_mem hg)
    rw [he]
    exact Nat.succ_pos q

theorem backtrackGo_isSome (st : UnigramState) (text : Str)
    {best : List VitEntry} {n : ℕ} (h : VitInv n best) :
    ∀ (fuel pos : ℕ) (acc : List ℤ), pos ≤ n → pos < fuel →
      ∃ r, backtrackGo st text best fuel pos acc = some r := by
  intro fuel
  induction fuel with
  | zero => intro pos acc _ hf; omega
  | succ fuel ih =>
    intro pos acc hpn hpf
    cases pos with
    | zero => exact ⟨acc, rfl⟩
    | succ p =>
      have hprev : (bestGetE best (p + 1) st.unkTokenId).2.1 < p + 1 :=
        vitInv_prev_lt h st.unkTokenId (by omega) hpn
      simp only [backtrackGo]
      exact ih _ _ (by omega) (by omega)

theorem viterbi_total (st : UnigramState) (text : Str) :
    ∃ ids, viterbi st text = some ids := by
  simp only [viterbi]
  by_cases h : text.length = 0
  · rw [if_pos h]
    exact ⟨[], rfl⟩
  · rw [if_neg h]
    exact backtrackGo_isSome st text (viterbiForward_inv st text text.length)
      (text.length + 1) text.length [] le_rfl (by omega)

theorem unigramEncodeWord_total (st : UnigramState) (word : Str) :
    ∃ ids, unigramEncodeWord st word = some ids := by
  simp only [unigramEncodeWord]
  cases ha : assocGet st.addedTokens word with
  | none => exact viterbi_total st _
  | some id => exact ⟨[id], rfl⟩

theorem mergePass_length_le (a b : Str) :
    ∀ l : List Str, (mergePass a b l).length ≤ l.length := by
  have H : ∀ (m : ℕ) (l : List Str), l.length ≤ m →
      (mergePass a b l).length ≤ l.length := by
    intro m
    induction m with
    | zero =>
      intro l hl
      cases l with
      | nil => simp [mergePass]
      | cons x xs => simp at hl
    | succ m ih =>
      intro l hl
      match l with
      | [] => simp [mergePass]
      | [x] => simp [mergePass]
      | x :: y :: rest =>
        simp only [mergePass]
        split
        · have hr := ih rest (by simp at hl ⊢; omega)
          simp only [List.length_cons] at hl ⊢
          omega
        · have hr := ih (y :: rest) (by simp at hl ⊢; omega)
          simp only [List.length_cons] at hl hr ⊢
          omega
  intro l
  exact H l.length l le_rfl

theorem mergePass_mem (a b : Str) :
    ∀ (l : List Str) (s : Str), s ∈ mergePass a b l → s = a ++ b ∨ s ∈ l := by
  have H : ∀ (m : ℕ) (l : List Str), l.length ≤ m → ∀ s,
      s ∈ mergePass a b l → s = a ++ b ∨ s ∈ l := by
    intro m
    induction m with
    | zero =>
      intro l hl s hs
      cases l with
      | nil => simp [mergePass] at hs
      | cons x xs => simp at hl
    | succ m ih =>
      intro l hl s hs
      match l with
      | [] => simp [mergePass] at hs
      | [x] =>
        simp only [mergePass] at hs
        exact Or.inr hs
      | x :: y :: rest =>
        simp only [mergePass] at hs
        split at hs
        · rcases List.mem_cons.mp hs with hh | ht
          · exact Or.inl hh
          · rcases ih rest (by simp at hl ⊢; omega) s ht with hh | hm
            · exact Or.inl hh
            · exact Or.inr (by simp [hm])
        · rcases List.mem_cons.mp hs with hh | ht
          · exact Or.inr (by simp [hh])
          · rcases ih (y :: rest) (by simp at hl ⊢; omega) s ht with hh | hm
            · exact Or.inl hh
            · exact Or.inr (by simp at hm ⊢; tauto)
  intro l s hs
  exact H l.length l le_rfl s hs

theorem mergePass_length_lt (a b : Str) :
    ∀ (l : List Str) (i : ℕ), l.get? i = some a → l.get? (i + 1) = some b →
      (mergePass a b l).length < l.length := by
  have H : ∀ (m : ℕ) (l : List Str), l.length ≤ m → ∀ i : ℕ,
      l.get? i = some a → l.get? (i + 1) = some b →
      (mergePass a b l).length < l.length := by
    intro m
    induction m with
    | zero =>
      intro l hl i h1 h2
      cases l with
      | nil => simp at h1
      | cons x xs => simp at hl
    | succ m ih =>
      intro l hl i h1 h2
      match l with
      | [] => simp at h1
      | [x] =>
        cases i with
        | zero => simp at h2
        | succ j => simp at h1
      | x :: y :: rest =>
        simp only [mergePass]
        split
        · have hr := mergePass_length_le a b rest
          simp only [List.length_cons] at hr ⊢
          omega
        · rename_i hxy
          cases i with
          | zero =>
            simp only [List.get?_cons_zero] at h1
            simp only [List.get?_cons_succ, List.get?_cons_zero] at h2
            cases h1
            cases h2
            exact absurd ⟨rfl, rfl⟩ hxy
          | succ j =>
            simp only [List.get?_cons_succ] at h1 h2
            have hr := ih (y :: rest) (by simp at hl ⊢; omega) j h1 h2
            simp only [List.length_cons] at hr ⊢
            omega
  intro l i h1 h2
  exact H l.length l le_rfl i h1 h2

theorem mergePass_noSpace (a b : Str) (l : List Str) (hl : NoSpaceSyms l)
    (ha : ' ' ∉ a) (hb : ' ' ∉ b) : NoSpaceSyms (mergePass a b l) := by
  intro s hs
  rcases mergePass_mem a b l s hs with h | h
  · rw [h]
    intro hsp
    rcases List.mem_append.mp hsp with hx | hx
    · exact ha hx
    · exact hb hx
  · exact hl s h

theorem takeWhile_nospace (x y : Str) (hx : ' ' ∉ x) :
    (x ++ ' ' :: y).takeWhile (fun c => !(c == ' ')) = x := by
  induction x with
  | nil => simp [List.takeWhile_cons]
  | cons c x ih =>
    have hc : ¬ c = ' ' := fun h => hx (by rw [h]; exact List.mem_cons_self _ _)
    have hx' : ' ' ∉ x := fun h => hx (List.mem_cons_of_mem _ h)
    simp only [List.cons_append, List.takeWhile_cons]
    simp [hc, ih hx']

theorem dropWhile_nospace (x y : Str) (hx : ' ' ∉ x) :
    (x ++ ' ' :: y).dropWhile (fun c => !(c == ' ')) = ' ' :: y := by
  induction x with
  | nil => simp [List.dropWhile_cons]
  | cons c x ih =>
    have hc : ¬ c = ' ' := fun h => hx (by rw [h]; exact List.mem_cons_self _ _)
    have hx' : ' ' ∉ x := fun h => hx (List.mem_cons_of_mem _ h)
    simp only [List.cons_append, List.dropWhile_cons]
    simp [hc, ih hx']

theorem splitPairAtSpace_append (x y : Str) (hx : ' ' ∉ x) :
    splitPairAtSpace (x ++ ' ' :: y) = (x, y) := by
  unfold splitPairAtSpace
  rw [takeWhile_nospace x y hx, dropWhile_nospace x y hx]
  simp

theorem findBestMergePair_shape (st : BPEState) (symbols : List Str)
    (pair : Str) (h : findBestMergePair st symbols = some pair) :
    ∃ x y i, symbols.get? i = some x ∧ symbols.get? (i + 1) = some y ∧
      pair = x ++ ' ' :: y := by
  unfold findBestMergePair at h
  rcases Option.map_eq_some'.mp h with ⟨q, hfold, hq⟩
  have hP := foldl_state_of_mem
    (fun acc : Option (Str × ℕ) => ∀ q0, acc = some q0 →
      ∃ x y i, symbols.get? i = some x ∧ symbols.get? (i + 1) = some y ∧
        q0.1 = x ++ ' ' :: y)
    (fun (acc : Option (Str × ℕ)) i =>
      let pair := nthD symbols i [] ++ (' ' :: nthD symbols (i + 1) [])
      match assocGet st.mergeRanks pair with
      | none => acc
      | some rank =>
        match acc with
        | none => some (pair, rank)
        | some (bp, br) =>
          if rank < br then some (pair, rank) else some (bp, br))
    (List.range (symbols.length - 1))
    (by
      intro s i hi hs
      have hi' : i < symbols.length - 1 := List.mem_range.mp hi
      have hi1 : i < symbols.length := by omega
      have hi2 : i + 1 < symbols.length := by omega
      have hgx := List.get?_eq_get hi1
      have hgy := List.get?_eq_get hi2
      have hnx : nthD symbols i [] = symbols.get ⟨i, hi1⟩ := by
        rw [nthD, hgx]; rfl
      have hny : nthD symbols (i + 1) [] = symbols.get ⟨i + 1, hi2⟩ := by
        rw [nthD, hgy]; rfl
      dsimp only
      split
      · exact hs
      · split
        · intro q0 hq0
          cases hq0
          exact ⟨_, _, i, hgx, hgy, by rw [hnx, hny]⟩
        · split
          · intro q0 hq0
            cases hq0
            exact ⟨_, _, i, hgx, hgy, by rw [hnx, hny]⟩
          · exact hs)
    none (by intro q0 hq0; cases hq0)
  rcases hP q hfold with ⟨x, y, i, hgx, hgy, hsh⟩
  exact ⟨x, y, i, hgx, hgy, by rw [← hq]; exact hsh⟩

theorem applyBPELoop_isSome (st : BPEState) :
    ∀ (fuel : ℕ) (symbols : List Str), NoSpaceSyms symbols →
      1 ≤ symbols.length → symbols.length ≤ fuel →
      ∃ r, applyBPELoop st fuel symbols = some r := by
  intro fuel
  induction fuel with
  | zero => intro s _ h1 h2; omega
  | succ fuel ih =>
    intro symbols hns h1 hf
    simp only [applyBPELoop]
    cases hbp : findBestMergePair st symbols with
    | none => exact ⟨symbols, rfl⟩
    | some pair =>
      obtain ⟨x, y, i, hgx, hgy, hpair⟩ := findBestMergePair_shape st symbols pair hbp
      have hxn : ' ' ∉ x := hns x (List.get?_mem hgx)
      have hyn : ' ' ∉ y := hns y (List.get?_mem hgy)
      have hsplit : splitPairAtSpace pair = (x, y) := by
        rw [hpair]; exact splitPairAtSpace_append x y hxn
      dsimp only
      rw [hsplit]
      dsimp only
      have hlt : (mergePass x y symbols).length < symbols.length :=
        mergePass_length_lt x y symbols i hgx hgy
      by_cases hle : (mergePass x y symbols).length ≤ 1
      · rw [if_pos hle]
        exact ⟨_, rfl⟩
      · rw [if_neg hle]
        exact ih (mergePass x y symbols)
          (mergePass_noSpace x y symbols hns hxn hyn) (by omega) (by omega)

theorem applyBPE_isSome (st : BPEState) (symbols : List Str)
    (hns : NoSpaceSyms symbols) : ∃ r, applyBPE st symbols = some r := by
  unfold applyBPE
  by_cases h : symbols.length ≤ 1
  · rw [if_pos h]
    exact ⟨symbols, rfl⟩
  · rw [if_neg h]
    exact applyBPELoop_isSome st symbols.length symbols hns (by omega) le_rfl

theorem byteEncoder_getD_ne_space :
    ∀ b, b < 256 → ((assocGet buildByteEncoder b).getD (Char.ofNat b)) ≠ ' ' := by
  decide

theorem utf8Bytes_lt (c : Char) : ∀ b ∈ utf8Bytes c, b < 256 := by
  intro b hb
  have hv := c.valid
  have hct : c.toNat = c.val.toNat := rfl
  have hc : c.toNat < 1114112 := by
    rcases hv with h | ⟨h1, h2⟩
    · omega
    · omega
  simp only [utf8Bytes] at hb
  have h64a : c.toNat % 64 < 64 := Nat.mod_lt _ (by norm_num)
  have h64b : (c.toNat / 64) % 64 < 64 := Nat.mod_lt _ (by norm_num)
  have h64c : (c.toNat / 4096) % 64 < 64 := Nat.mod_lt _ (by norm_num)
  have hda : c.toNat / 262144 < 5 :=
    Nat.div_lt_of_lt_mul (by omega)
  split at hb
  · simp at hb; omega
  · split at hb
    · have hdb : c.toNat / 64 < 32 := Nat.div_lt_of_lt_mul (by omega)
      simp at hb
      rcases hb with hb | hb <;> omega
    · split at hb
      · have hdc : c.toNat / 4096 < 16 := Nat.div_lt_of_lt_mul (by omega)
        simp at hb
        rcases hb with hb | hb | hb <;> omega
      · simp at hb
        rcases hb with hb | hb | hb | hb <;> omega

theorem encodeByteLevelBPE_isSome (st : BPEState) (word : Str)
    (hbe : st.byteEncoder = buildByteEncoder) :
    ∃ r, encodeByteLevelBPE st word = some r := by
  simp only [encodeByteLevelBPE]
  generalize (if st.addPrefixSpace then ' ' :: word else word) = toEnc
  split
  · exact ⟨_, rfl⟩
  · split
    · split
      · exact ⟨_, rfl⟩
      · exact ⟨_, rfl⟩
    · have hns : NoSpaceSyms
          ((toEnc.flatMap utf8Bytes).map
            (fun b => [(assocGet st.byteEncoder b).getD (Char.ofNat b)])) := by
        intro s hs
        rcases List.mem_map.mp hs with ⟨b, hbmem, hbs⟩
        rcases List.mem_flatMap.mp hbmem with ⟨ch, _, hbch⟩
        have hb : b < 256 := utf8Bytes_lt ch b hbch
        rw [← hbs]
        intro hsp
        have hceq : ' ' = (assocGet st.byteEncoder b).getD (Char.ofNat b) := by
          simpa using hsp
        rw [hbe] at hceq
        exact byteEncoder_getD_ne_space b hb hceq.symm
      obtain ⟨r, hr⟩ := applyBPE_isSome st _ hns
      rw [hr]
      exact ⟨_, rfl⟩

theorem findWordPiece_bounds (st : BPEState) (word : Str) (start : ℕ)
    (id : ℤ) (endPos : ℕ) (h : findWordPiece st word start = some (id, endPos)) :
    start < endPos ∧ endPos ≤ word.length := by
  simp only [findWordPiece] at h
  obtain ⟨e, he, hfe⟩ := List.exists_of_findSome?_eq_some h
  have hmem : e ∈ List.range' (start + 1) (word.length - start) :=
    List.mem_reverse.mp he
  have hb := List.mem_range'_1.mp hmem
  rcases Option.map_eq_some'.mp hfe with ⟨i0, _, heq⟩
  have hepos : e = endPos := by
    have := congrArg Prod.snd heq
    simpa using this
  omega

theorem wordPieceGo_isSome (st : BPEState) (word : Str) :
    ∀ (fuel start : ℕ), word.length - start < fuel →
      ∃ r, wordPieceGo st word fuel start = some r := by
  intro fuel
  induction fuel with
  | zero => intro start h; omega
  | succ fuel ih =>
    intro start hf
    simp only [wordPieceGo]
    by_cases hs : start < word.length
    · rw [if_pos hs]
      cases hfw : findWordPiece st word start with
      | none =>
        obtain ⟨r, hr⟩ := ih (start + 1) (by omega)
        dsimp only
        rw [hr]
        exact ⟨_, rfl⟩
      | some p =>
        obtain ⟨id, endPos⟩ := p
        have hbd := findWordPiece_bounds st word start id endPos hfw
        obtain ⟨r, hr⟩ := ih endPos (by omega)
        dsimp only
        rw [hr]
        exact ⟨_, rfl⟩
    · rw [if_neg hs]
      exact ⟨[], rfl⟩

theorem encodeWordPieceFallback_isSome (st : BPEState) (word : Str) :
    ∃ r, encodeWordPieceFallback st word = some r := by
  simp only [encodeWordPieceFallback]
  cases hv : assocGet st.vocab word with
  | none => exact wordPieceGo_isSome st word (word.length + 1) 0 (by omega)
  | some id => exact ⟨[id], rfl⟩

theorem bpeEncodeWord_isSome (st : BPEState) (word : Str)
    (hbe : st.byteEncoder = buildByteEncoder) :
    ∃ r, bpeEncodeWord st word = some r := by
  simp only [bpeEncodeWord]
  cases ha : assocGet st.addedTokens word with
  | none =>
    by_cases hm : st.isByteLevelBPE
    · rw [if_pos hm]
      exact encodeByteLevelBPE_isSome st word hbe
    · rw [if_neg hm]
      exact encodeWordPieceFallback_isSome st word
  | some id => exact ⟨[id], rfl⟩

/-- C7: once a tokenizer is initialized, `encodeWord` terminates and
returns a token-id list for every input word, on both variants: every
Unigram state (the Viterbi forward pass only ever writes backward-pointing
`prev` links, so the backtracking loop terminates), and every BPE state
whose byte-encoder table is the constructor's `buildByteEncoder` (its
symbols never contain a space, so every BPE merge round strictly shortens
the symbol list; the WordPiece path always advances its start cursor).
Unknown input degrades to unknown-token or byte-fallback ids inside these
total functions rather than failing: `none`, the image of a non-terminating
loop, is never returned. -/
theorem claim_C7 :
    (∀ (st : UnigramState) (word : Str),
      ∃ ids, unigramEncodeWord st word = some ids) ∧
    (∀ (st : BPEState) (word : Str), st.byteEncoder = buildByteEncoder →
      ∃ ids, bpeEncodeWord st word = some ids) :=
  ⟨fun st word => unigramEncodeWord_total st word,
   fun st word hbe => bpeEncodeWord_isSome st word hbe⟩

theorem claim_C7_witness :
    (∃ ids, unigramEncodeWord uniW ("hi".data) = some ids) ∧
    (∃ ids, bpeEncodeWord bpeW ("hi".data) = some ids) :=
  ⟨claim_C7.1 uniW ("hi".data), claim_C7.2 bpeW ("hi".data) rfl⟩

/-- C8: while the module tokenizer singleton is null, `encodeWord`,
`getSpecialTokenId`, `getClsTokenId` and `getSepTokenId` all throw
`'Tokenizer not initialized'` — the error reaches the caller and no token
id is produced; once a tokenizer instance is installed (as `initTokenizer`
unconditionally does on both of its branches), each of the four calls
returns a result and no longer fails for that reason. -/
theorem claim_C8 :
    (∀ word, encodeWordTop none word =
      Except.error ("Tokenizer not initialized".data)) ∧
    (∀ token, getSpecialTokenIdTop none token =
      Except.error ("Tokenizer not initialized".data)) ∧
    (getClsTokenIdTop none =
      Except.error ("Tokenizer not initialized".data)) ∧
    (getSepTokenIdTop none =
      Except.error ("Tokenizer not initialized".data)) ∧
    (∀ t word, ∃ v, encodeWordTop (some t) word = Except.ok v) ∧
    (∀ t token, ∃ v, getSpecialTokenIdTop (some t) token = Except.ok v) ∧
    (∀ t, ∃ v, getClsTokenIdTop (some t) = Except.ok v) ∧
    (∀ t, ∃ v, getSepTokenIdTop (some t) = Except.ok v) := by
  refine ⟨fun _ => rfl, fun _ => rfl, rfl, rfl, ?_, ?_, ?_, ?_⟩
  · intro t word
    cases t with
    | unigram st => exact ⟨_, rfl⟩
    | bpe st => exact ⟨_, rfl⟩
  · intro t token
    exact ⟨_, rfl⟩
  · intro t
    cases t with
    | unigram st => exact ⟨_, rfl⟩
    | bpe st => exact ⟨_, rfl⟩
  · intro t
    cases t with
    | unigram st => exact ⟨_, rfl⟩
    | bpe st => exact ⟨_, rfl⟩

/-! ### Anonymization round-trip (claim C1) and placeholders (claim C5) -/

theorem digitChar_toNat : ∀ d, d < 10 → (nthD digitChars d '0').toNat = 48 + d := by
  decide

theorem digitChar_ne_space : ∀ d, d < 10 → ¬ nthD digitChars d '0' = ' ' := by
  decide

theorem strVal_append_digit (a : Str) (c : Char) :
    strVal (a ++ [c]) = 10 * strVal a + (c.toNat - 48) := by
  simp [strVal, List.foldl_append]

theorem natToStrGo_val : ∀ (fuel n : ℕ), n ≤ fuel →
    strVal (natToStrGo fuel n) = n := by
  intro fuel
  induction fuel with
  | zero =>
    intro n h
    have : n = 0 := by omega
    subst this
    rfl
  | succ fuel ih =>
    intro n h
    simp only [natToStrGo]
    by_cases h0 : n = 0
    · rw [if_pos h0, h0]
      rfl
    · rw [if_neg h0]
      rw [strVal_append_digit, ih (n / 10) (by omega),
        digitChar_toNat (n % 10) (Nat.mod_lt _ (by norm_num))]
      omega

theorem natToStr_val (n : ℕ) : strVal (natToStr n) = n := by
  unfold natToStr
  by_cases h0 : n = 0
  · rw [if_pos h0, h0]
    rfl
  · rw [if_neg h0]
    exact natToStrGo_val (n + 1) n (by omega)

theorem natToStr_inj {m n : ℕ} (h : natToStr m = natToStr n) : m = n := by
  rw [← natToStr_val m, ← natToStr_val n, h]

theorem natToStrGo_ne_space : ∀ (fuel n : ℕ), ∀ c ∈ natToStrGo fuel n, ¬ c = ' ' := by
  intro fuel
  induction fuel with
  | zero => intro n c hc; simp [natToStrGo] at hc
  | succ fuel ih =>
    intro n c hc
    simp only [natToStrGo] at hc
    by_cases h0 : n = 0
    · rw [if_pos h0] at hc
      simp at hc
    · rw [if_neg h0] at hc
      rcases List.mem_append.mp hc with hl | hr
      · exact ih (n / 10) c hl
      · have : c = nthD digitChars (n % 10) '0' := by simpa using hr
        rw [this]
        exact digitChar_ne_space (n % 10) (Nat.mod_lt _ (by norm_num))

theorem natToStr_ne_space (n : ℕ) : ∀ c ∈ natToStr n, ¬ c = ' ' := by
  intro c hc
  unfold natToStr at hc
  by_cases h0 : n = 0
  · rw [if_pos h0] at hc
    have : c = '0' := by simpa using hc
    rw [this]
    decide
  · rw [if_neg h0] at hc
    exact natToStrGo_ne_space (n + 1) n c hc

theorem append_pivot_inj {α : Type} (p : α) :
    ∀ (u1 v1 u2 v2 : List α), p ∉ u1 → p ∉ u2 →
      u1 ++ p :: v1 = u2 ++ p :: v2 → u1 = u2 ∧ v1 = v2 := by
  intro u1
  induction u1 with
  | nil =>
    intro v1 u2 v2 _ h2 h
    cases u2 with
    | nil =>
      simp at h
      exact ⟨rfl, h⟩
    | cons b u2 =>
      simp at h
      exact absurd (h.1 ▸ List.mem_cons_self b u2) h2
  | cons a u1 ih =>
    intro v1 u2 v2 h1 h2 h
    cases u2 with
    | nil =>
      simp at h
      exact absurd (h.1 ▸ List.mem_cons_self a u1) h1
    | cons b u2 =>
      simp only [List.cons_append, List.cons.injEq] at h
      have hrest := ih v1 u2 v2 (fun hm => h1 (List.mem_cons_of_mem _ hm))
        (fun hm => h2 (List.mem_cons_of_mem _ hm)) h.2
      exact ⟨by rw [h.1, hrest.1], hrest.2⟩

theorem phKey_inj {t1 t2 : Str} {c1 c2 : ℕ} (h : phKey t1 c1 = phKey t2 c2) :
    t1 = t2 ∧ c1 = c2 := by
  unfold phKey at h
  have h' : t1 ++ ' ' :: (natToStr c1 ++ ['>']) =
      t2 ++ ' ' :: (natToStr c2 ++ ['>']) := by
    exact (List.cons.injEq _ _ _ _).mp h |>.2
  have hrev := congrArg List.reverse h'
  have hshape : ∀ (t : Str) (w : Str),
      (t ++ ' ' :: w).reverse = w.reverse ++ ' ' :: t.reverse := by
    intro t w
    rw [List.reverse_append, List.reverse_cons, List.append_assoc,
      List.singleton_append]
  rw [hshape, hshape] at hrev
  have hw1 : ' ' ∉ (natToStr c1 ++ ['>']).reverse := by
    intro hm
    rw [List.mem_reverse] at hm
    rcases List.mem_append.mp hm with hd | hg
    · exact natToStr_ne_space c1 ' ' hd rfl
    · simp at hg
  have hw2 : ' ' ∉ (natToStr c2 ++ ['>']).reverse := by
    intro hm
    rw [List.mem_reverse] at hm
    rcases List.mem_append.mp hm with hd | hg
    · exact natToStr_ne_space c2 ' ' hd rfl
    · simp at hg
  have hparts := append_pivot_inj ' ' _ _ _ _ hw1 hw2 hrev
  have ht : t1 = t2 := by
    have := congrArg List.reverse hparts.2
    simpa using this
  have hd : natToStr c1 ++ ['>'] = natToStr c2 ++ ['>'] := by
    have := congrArg List.reverse hparts.1
    simpa using this
  have hds : natToStr c1 = natToStr c2 := by
    have := congrArg List.reverse hd
    simp only [List.reverse_append] at this
    simp at this
    have := congrArg List.reverse this
    simpa using this
  exact ⟨ht, natToStr_inj hds⟩

theorem assocGet_assocSet_self {α β : Type} [DecidableEq α]
    (l : List (α × β)) (k : α) (v : β) :
    assocGet (assocSet l k v) k = some v := by
  induction l with
  | nil => simp [assocSet, assocGet, List.find?]
  | cons p l ih =>
    obtain ⟨k0, v0⟩ := p
    simp only [assocSet]
    by_cases hk : k0 = k
    · rw [if_pos hk]
      simp [assocGet, List.find?, hk]
    · rw [if_neg hk]
      simp only [assocGet, List.find?] at ih ⊢
      rw [show (decide (k0 = k)) = false by simpa using hk]
      exact ih

theorem assocGet_assocSet_ne {α β : Type} [DecidableEq α]
    (l : List (α × β)) (k k' : α) (v : β) (h : ¬ k = k') :
    assocGet (assocSet l k v) k' = assocGet l k' := by
  induction l with
  | nil =>
    simp only [assocSet, assocGet, List.find?]
    rw [show (decide (k = k')) = false by simpa using h]
  | cons p l ih =>
    obtain ⟨k0, v0⟩ := p
    simp only [assocSet]
    by_cases hk : k0 = k
    · rw [if_pos hk]
      simp only [assocGet, List.find?]
      rw [show (decide (k0 = k')) = false by simp [hk, h]]
    · rw [if_neg hk]
      simp only [assocGet, List.find?] at ih ⊢
      cases hd : decide (k0 = k') with
      | true => rfl
      | false => exact ih

theorem assocSet_of_not_mem {α β : Type} [DecidableEq α]
    (l : List (α × β)) (k : α) (v : β) (h : k ∉ l.map Prod.fst) :
    assocSet l k v = l ++ [(k, v)] := by
  induction l with
  | nil => rfl
  | cons p l ih =>
    obtain ⟨k0, v0⟩ := p
    simp only [List.map_cons, List.mem_cons] at h
    push_neg at h
    simp only [assocSet]
    rw [if_neg (fun he => h.1 he.symm), ih h.2]
    rfl

theorem rmPush_spec (st : List RMatch × List (Str × ℕ)) (t v : Str)
    (hinv : RegInv st) (ht : 1 ≤ (assocGet st.2 t).getD 0) :
    RegInv (rmPush st t v) ∧
    (∀ u, (assocGet st.2 u).getD 0 ≤ (assocGet (rmPush st t v).2 u).getD 0) := by
  have hmono : ∀ u, (assocGet st.2 u).getD 0 ≤
      (assocGet (assocSet st.2 t ((assocGet st.2 t).getD 0 + 1)) u).getD 0 := by
    intro u
    by_cases hu : t = u
    · subst hu
      rw [assocGet_assocSet_self]
      simp only [Option.getD_some]
      omega
    · rw [assocGet_assocSet_ne _ _ _ _ hu]
  have hfresh : phKey t ((assocGet st.2 t).getD 0) ∉ st.1.map RMatch.placeholder := by
    intro hmem
    rcases List.mem_map.mp hmem with ⟨m, hm, hpm⟩
    rcases hinv.2 m hm with ⟨c, hc1, hc2, hc3⟩
    rw [hc3] at hpm
    have hinj := phKey_inj hpm
    rw [hinj.1] at hc2
    omega
  refine ⟨And.intro ?_ ?_, hmono⟩
  · show ((st.1 ++ [RMatch.mk t v (phKey t ((assocGet st.2 t).getD 0))]).map
      RMatch.placeholder).Nodup
    rw [List.map_append, List.nodup_append]
    exact ⟨hinv.1, by simp,
      by intro a ha hb; simp at hb; rw [hb] at ha; exact hfresh ha⟩
  · intro m hm
    rcases List.mem_append.mp hm with hold | hnew
    · rcases hinv.2 m hold with ⟨c, hc1, hc2, hc3⟩
      exact ⟨c, hc1, le_trans hc2 (hmono m.type), hc3⟩
    · have hme : m = RMatch.mk t v (phKey t ((assocGet st.2 t).getD 0)) := by
        simpa using hnew
      subst hme
      refine ⟨(assocGet st.2 t).getD 0, ht, ?_, rfl⟩
      show (assocGet st.2 t).getD 0 + 1 ≤
        (assocGet (assocSet st.2 t ((assocGet st.2 t).getD 0 + 1)) t).getD 0
      rw [assocGet_assocSet_self]
      simp only [Option.getD_some]
      omega

theorem structuredTypes_covered :
    ∀ p ∈ STRUCTURED_PII_PATTERNS, p.1 ∈ regexCounters0.map Prod.fst := by
  decide

theorem person_covered : ("person".data) ∈ regexCounters0.map Prod.fst := by
  decide

theorem coverOne_counters0 : CoverOne regexCounters0 := by
  unfold CoverOne
  decide

theorem regexStructuredStep_inv (text : Str) (st : List RMatch × List (Str × ℕ))
    (p : Str × RX × Bool) (hp : p.1 ∈ regexCounters0.map Prod.fst)
    (h : RegInv st ∧ CoverOne st.2) :
    RegInv (regexStructuredStep text st p) ∧
      CoverOne (regexStructuredStep text st p).2 := by
  have hfold := foldl_state
    (fun st : List RMatch × List (Str × ℕ) => RegInv st ∧ CoverOne st.2)
    (fun st m => rmPush st p.1 (jsSlice text m.1 m.2.1))
    (fun s m hs => by
      have hpush := rmPush_spec s p.1 (jsSlice text m.1 m.2.1) hs.1 (hs.2 p.1 hp)
      exact ⟨hpush.1, fun u hu => le_trans (hs.2 u hu) (hpush.2 u)⟩)
    (rxExecAll p.2.2 p.2.1 text) st h
  exact hfold

theorem regexStructuredMatches_inv (text : Str) :
    RegInv (regexStructuredMatches text) ∧
      CoverOne (regexStructuredMatches text).2 := by
  have h := foldl_state_of_mem
    (fun st : List RMatch × List (Str × ℕ) => RegInv st ∧ CoverOne st.2)
    (regexStructuredStep text) STRUCTURED_PII_PATTERNS
    (fun s p hp hs => regexStructuredStep_inv text s p (structuredTypes_covered p hp) hs)
    ([], regexCounters0)
    ⟨⟨by simp, by intro m hm; cases hm⟩, coverOne_counters0⟩
  exact h

theorem regexContextStep_inv (text : Str) (st : List RMatch × List (Str × ℕ))
    (p : Str × RX) (h : RegInv st ∧ CoverOne st.2) :
    RegInv (regexContextStep text st p) ∧
      CoverOne (regexContextStep text st p).2 := by
  simp only [regexContextStep]
  set cs1 := if (assocGet st.2 p.1).getD 0 = 0 then assocSet st.2 p.1 1 else st.2
    with hcs1
  have hmono1 : ∀ u, (assocGet st.2 u).getD 0 ≤ (assocGet cs1 u).getD 0 := by
    intro u
    rw [hcs1]
    split
    · rename_i h0
      by_cases hu : p.1 = u
      · subst hu
        rw [assocGet_assocSet_self, h0]
        simp
      · rw [assocGet_assocSet_ne _ _ _ _ hu]
    · exact le_refl _
  have h1p : 1 ≤ (assocGet cs1 p.1).getD 0 := by
    rw [hcs1]
    split
    · rw [assocGet_assocSet_self]
      simp
    · rename_i h0
      omega
  have hQ0 : RegInv (st.1, cs1) ∧ CoverOne cs1 ∧
      1 ≤ (assocGet cs1 p.1).getD 0 := by
    refine ⟨⟨h.1.1, ?_⟩, fun u hu => le_trans (h.2 u hu) (hmono1 u), h1p⟩
    intro m hm
    rcases h.1.2 m hm with ⟨c, hc1, hc2, hc3⟩
    exact ⟨c, hc1, le_trans hc2 (hmono1 m.type), hc3⟩
  have hfold := foldl_state
    (fun st : List RMatch × List (Str × ℕ) =>
      RegInv st ∧ CoverOne st.2 ∧ 1 ≤ (assocGet st.2 p.1).getD 0)
    (fun st m =>
      match m.2.2 with
      | none => st
      | some g =>
        let value := jsTrim (jsSlice text g.1 g.2)
        if st.1.any (fun m0 => m0.value = value) then st
        else rmPush st p.1 value)
    (fun s m hs => by
      obtain ⟨ms, me, mg⟩ := m
      cases mg with
      | none => exact hs
      | some g =>
        dsimp only
        split
        · exact hs
        · have hpush := rmPush_spec s p.1 (jsTrim (jsSlice text g.1 g.2)) hs.1 hs.2.2
          exact ⟨hpush.1, fun u hu => le_trans (hs.2.1 u hu) (hpush.2 u),
            le_trans hs.2.2 (hpush.2 p.1)⟩)
    (rxExecAll true p.2 text) (st.1, cs1) hQ0
  exact ⟨hfold.1, hfold.2.1⟩

theorem regexAfterContext_inv (text : Str) :
    RegInv (regexAfterContext text) ∧ CoverOne (regexAfterContext text).2 := by
  have h := foldl_state
    (fun st : List RMatch × List (Str × ℕ) => RegInv st ∧ CoverOne st.2)
    (regexContextStep text)
    (fun s p hs => regexContextStep_inv text s p hs)
    CONTEXT_PII_PATTERNS (regexStructuredMatches text)
    (regexStructuredMatches_inv text)
  exact h

theorem regexAfterPerson_inv (text : Str) :
    RegInv (regexAfterPerson text) ∧ CoverOne (regexAfterPerson text).2 := by
  have h := foldl_state
    (fun st : List RMatch × List (Str × ℕ) => RegInv st ∧ CoverOne st.2)
    (regexPersonStep text)
    (fun s m hs => by
      simp only [regexPersonStep]
      split
      · have hpush := rmPush_spec s ("person".data) (jsSlice text m.1 m.2.1)
          hs.1 (hs.2 _ person_covered)
        exact ⟨hpush.1, fun u hu => le_trans (hs.2 u hu) (hpush.2 u)⟩
      · exact hs)
    (rxExecAll false personPattern text) (regexAfterContext text)
    (regexAfterContext_inv text)
  exact h

theorem dedupCIGo_sublist : ∀ (seen : List Str) (l : List RMatch),
    (dedupCIGo seen l).Sublist l := by
  intro seen l
  induction l generalizing seen with
  | nil => simp [dedupCIGo]
  | cons m rest ih =>
    simp only [dedupCIGo]
    split
    · exact List.Sublist.cons m (ih seen)
    · exact List.Sublist.cons₂ m (ih _)

theorem regexApplyFold_keys : ∀ (l : List RMatch) (a : Str) (mp : List (Str × Str)),
    (mp.map Prod.fst ++ l.map RMatch.placeholder).Nodup →
    ((l.foldl regexApplyStep (a, mp)).2.map Prod.fst) =
      mp.map Prod.fst ++ l.map RMatch.placeholder := by
  intro l
  induction l with
  | nil =>
    intro a mp h
    simp
  | cons m l ih =>
    intro a mp h
    have hph : m.placeholder ∉ mp.map Prod.fst := by
      intro hmem
      rcases List.nodup_append.mp h with ⟨_, _, hd⟩
      exact hd hmem (by simp)
    have hstep : regexApplyStep (a, mp) m =
        (jsReplaceWordCI a m.value m.placeholder,
          mp ++ [(m.placeholder, m.value)]) := by
      simp only [regexApplyStep]
      rw [assocSet_of_not_mem _ _ _ hph]
    show ((l.foldl regexApplyStep (regexApplyStep (a, mp) m)).2.map Prod.fst) = _
    rw [hstep]
    rw [ih (jsReplaceWordCI a m.value m.placeholder) (mp ++ [(m.placeholder, m.value)])
      (by simpa [List.map_append, List.append_assoc] using h)]
    simp [List.map_append]

theorem hybridAssignStep_spec (st : Str × List (Str × Str) × List (Str × ℕ))
    (m : PiiM) (hinv : HybKeyInv st.2.1 st.2.2) :
    ∃ c, 1 ≤ c ∧
      (hybridAssignStep st m).2.1 = st.2.1 ++ [(phKey m.type c, m.value)] ∧
      phKey m.type c ∉ st.2.1.map Prod.fst ∧
      HybKeyInv (hybridAssignStep st m).2.1 (hybridAssignStep st m).2.2 := by
  simp only [hybridAssignStep]
  set cnt0 := (assocGet st.2.2 m.type).getD 0 with hcnt0
  set cnt := if cnt0 = 0 then 1 else cnt0 with hcnt
  have hc1 : 1 ≤ cnt := by
    rw [hcnt]
    split <;> omega
  have hcnt0le : cnt0 ≤ cnt + 1 := by
    rw [hcnt]
    split <;> omega
  have hfresh : phKey m.type cnt ∉ st.2.1.map Prod.fst := by
    intro hmem
    rcases hinv _ hmem with ⟨t, c, h1, h2, h3⟩
    have hinj := phKey_inj h3.symm
    rw [hinj.1] at h2
    rw [← hcnt0] at h2
    rw [hinj.2] at h2
    by_cases h0 : cnt0 = 0
    · rw [h0] at h2
      omega
    · rw [hcnt, if_neg h0] at h2
      omega
  refine ⟨cnt, hc1, ?_, hfresh, ?_⟩
  · exact assocSet_of_not_mem _ _ _ hfresh
  · intro k hk
    rw [show (assocSet st.2.1 (phKey m.type cnt) m.value) =
        st.2.1 ++ [(phKey m.type cnt, m.value)] from
      assocSet_of_not_mem _ _ _ hfresh, List.map_append] at hk
    rcases List.mem_append.mp hk with hold | hnew
    · rcases hinv k hold with ⟨t, c, h1, h2, h3⟩
      refine ⟨t, c, h1, ?_, h3⟩
      by_cases hts : m.type = t
      · subst hts
        rw [assocGet_assocSet_self]
        simp only [Option.getD_some]
        rw [← hcnt0] at h2
        omega
      · rw [assocGet_assocSet_ne _ _ _ _ hts]
        exact h2
    · have hknew : k = phKey m.type cnt := by simpa using hnew
      refine ⟨m.type, cnt, hc1, ?_, hknew⟩
      rw [assocGet_assocSet_self]
      simp

theorem hybridAssignFold : ∀ (l : List PiiM)
    (st : Str × List (Str × Str) × List (Str × ℕ)),
    HybKeyInv st.2.1 st.2.2 → (st.2.1.map Prod.fst).Nodup →
    HybKeyInv (l.foldl hybridAssignStep st).2.1 (l.foldl hybridAssignStep st).2.2 ∧
    ((l.foldl hybridAssignStep st).2.1.map Prod.fst).Nodup ∧
    (l.foldl hybridAssignStep st).2.1.length = st.2.1.length + l.length := by
  intro l
  induction l with
  | nil =>
    intro st h1 h2
    exact ⟨h1, h2, by simp⟩
  | cons m l ih =>
    intro st h1 h2
    obtain ⟨c, hc1, heq, hfresh, hinv'⟩ := hybridAssignStep_spec st m h1
    have h2' : ((hybridAssignStep st m).2.1.map Prod.fst).Nodup := by
      rw [heq, List.map_append, List.nodup_append]
      exact ⟨h2, by simp,
        by intro a ha hb; simp at hb; rw [hb] at ha; exact hfresh ha⟩
    have hrest := ih (hybridAssignStep st m) hinv' h2'
    simp only [List.foldl_cons]
    refine ⟨hrest.1, hrest.2.1, ?_⟩
    rw [hrest.2.2, heq]
    simp
    omega

/-- C5 amended: on both paths all mapping keys are distinct, well-formed
placeholders — the mapping-object writes never collide (its final size
equals the number of processed matches) and every key is `<t c>` for some
type `t` and counter `c ≥ 1`.  The claim's counter discipline does not
hold as stated: the hybrid path assigns per-type counters 1, 2, … while
walking matches in descending start order (so counters decrease across the
result), and the regex path deduplicates case-insensitively by value after
counters were assigned, so the surviving counters of a type need not start
at 1 or be contiguous (see the counterexample). -/
theorem claim_C5_amended :
    (∀ (env : GlinerEnv) (text : Str),
      ((anonymizeHybrid env text).2.map Prod.fst).Nodup ∧
      (anonymizeHybrid env text).2.length =
        (hybridAssignOrder text (detectPIIDefault env text PII_LABELS)).length ∧
      ∀ k ∈ (anonymizeHybrid env text).2.map Prod.fst,
        ∃ t c, 1 ≤ c ∧ k = phKey t c) ∧
    (∀ text : Str,
      ((anonymizeWithRegex text).2.map Prod.fst).Nodup ∧
      (anonymizeWithRegex text).2.length = (regexUniqueMatches text).length ∧
      ∀ k ∈ (anonymizeWithRegex text).2.map Prod.fst,
        ∃ t c, 1 ≤ c ∧ k = phKey t c) := by
  constructor
  · intro env text
    have h := hybridAssignFold
      (hybridAssignOrder text (detectPIIDefault env text PII_LABELS))
      (text, [], hybridCounters0 (detectPIIDefault env text PII_LABELS))
      (by intro k hk; simp at hk) (by simp)
    refine ⟨h.2.1, by simpa using h.2.2, ?_⟩
    intro k hk
    rcases h.1 k hk with ⟨t, c, hc1, _, h3⟩
    exact ⟨t, c, hc1, h3⟩
  · intro text
    have hfin := regexAfterPerson_inv text
    have hperm : (regexSortedMatches text).Perm (regexAfterPerson text).1 :=
      stableSortBy_perm _ _
    have hSortNodup : ((regexSortedMatches text).map RMatch.placeholder).Nodup :=
      ((hperm.map _).nodup_iff).mpr hfin.1.1
    have hsub : (regexUniqueMatches text).Sublist (regexSortedMatches text) :=
      dedupCIGo_sublist [] _
    have hUniqNodup : ((regexUniqueMatches text).map RMatch.placeholder).Nodup :=
      hSortNodup.sublist (hsub.map _)
    have hkeys := regexApplyFold_keys (regexUniqueMatches text) text []
      (by simpa using hUniqNodup)
    have hkeys' : (anonymizeWithRegex text).2.map Prod.fst =
        (regexUniqueMatches text).map RMatch.placeholder := by
      simpa using hkeys
    refine ⟨?_, ?_, ?_⟩
    · rw [hkeys']
      exact hUniqNodup
    · have := congrArg List.length hkeys'
      simpa using this
    · intro k hk
      rw [hkeys'] at hk
      rcases List.mem_map.mp hk with ⟨m, hm, hpm⟩
      have hm2 : m ∈ (regexAfterPerson text).1 :=
        hperm.mem_iff.mp (hsub.subset hm)
      rcases hfin.1.2 m hm2 with ⟨c, hc1, _, h3⟩
      exact ⟨m.type, c, hc1, by rw [← hpm, h3]⟩

/-- C1 fails on the regex fallback path: on `"A@b.cc a@b.cc"` the email
regex matches both case variants, the case-insensitive value dedup keeps
only the later-positioned `"a@b.cc"` (whose placeholder is `<email 2>`),
the case-insensitive word-bounded replace rewrites both occurrences to
that placeholder, and reversing the single mapping yields
`"a@b.cc a@b.cc"` — the capitalization of the first email is lost, so
`reversePIIMappings` does not reconstruct the input. -/
theorem claim_C1_counterexample :
    reversePIIMappings (anonymizeWithRegex ("A@b.cc a@b.cc".data)).1
        (anonymizeWithRegex ("A@b.cc a@b.cc".data)).2 =
      ("a@b.cc a@b.cc".data) ∧
    ("a@b.cc a@b.cc".data : Str) ≠ ("A@b.cc a@b.cc".data : Str) := by
  constructor
  · decide
  · decide

/-- C5 fails as stated: on `"A@b.cc a@b.cc"` the regex fallback path
assigns `<email 1>` and `<email 2>` while collecting, then the
case-insensitive value dedup drops the `<email 1>` match, so the only
mapping key is `<email 2>` — the counters actually used do not start
at 1. -/
theorem claim_C5_counterexample :
    ((anonymizeWithRegex ("A@b.cc a@b.cc".data)).2.map Prod.fst) =
      [phKey ("email".data) 2] ∧
    phKey ("email".data) 2 ≠ phKey ("email".data) 1 := by
  constructor
  · decide
  · decide

end SafeTranscript
